import Mathlib

/-!
# Verification of the TETSUO wallet transaction core

Shallow embedding of the transaction codec, coin selector, signer glue and
key-import logic of the `tetsuonpmwallet` repository
(`src/crypto.ts`, `src/transaction.ts`, `src/wallet.ts`, and the legacy
duplicate `unnamed/part_001`).

Modelling conventions:

* The TypeScript code represents byte strings as lowercase hex strings,
  two hex characters per byte, and all offsets in it count hex characters.
  We model such hex strings as `List Nat` of byte values, so every source
  offset `2*k` becomes the byte offset `k` here.  All hex strings handled
  by the transaction codec are produced lowercase (`Number.toString(16)`),
  so JavaScript string comparisons such as `slice(pos, pos+2) < 'fd'` and
  `=== 'fd'` coincide with the numeric comparisons on the byte value used
  here; the one place the source produces uppercase hex (the low-S value in
  `encodeDERSignature`) is numerically unaffected by case.
* JavaScript numbers holding integer satoshi amounts are modelled as `Int`
  (they can be compared and subtracted freely); byte values, lengths and
  offsets are `Nat`.
* External libraries (node `crypto` hashes, the `elliptic` secp256k1
  implementation) are not part of the repository; they enter the embedding
  as explicit function parameters bundled in `CryptoPrims`, so every
  theorem quantifies over their behaviour or instantiates them concretely.
-/

namespace Tetsuo

/-- Fuel-driven base-256 digit extraction; the fuel only serves structural
termination and is irrelevant as soon as it dominates the argument. -/
def natToBEBytesAux : Nat → Nat → List Nat
  | 0, _ => []
  | fuel + 1, n => if n = 0 then [] else natToBEBytesAux fuel (n / 256) ++ [n % 256]

/-- Big-endian base-256 digits of `n`, with no leading zero byte; `[]` for 0.
This is the byte-list counterpart of JavaScript `n.toString(16)` (which
produces no leading `'0'` characters). -/
def natToBEBytes (n : Nat) : List Nat :=
  natToBEBytesAux n n

/-- Big-endian interpretation of a byte list (JavaScript `parseInt(hex, 16)`
on the corresponding hex string). -/
def fromBEBytes (bs : List Nat) : Nat :=
  bs.foldl (fun a b => a * 256 + b) 0

/-- Left-pad a byte list with zero bytes to length `k`
(JavaScript `hex.padStart(2*k, '0')`). -/
def padToLen (k : Nat) (bs : List Nat) : List Nat :=
  List.replicate (k - bs.length) 0 ++ bs

/-- Model of `n` as exactly `k` big-endian bytes (for `n < 256^k`); the byte-list
form of `n.toString(16).padStart(2*k, '0')`. -/
def natToBEBytesPad (k n : Nat) : List Nat :=
  padToLen k (natToBEBytes n)

/-- Model of `reverseBytesInPairs` from `src/transaction.ts`: reversing a hex string
in pairs of characters is reversing the byte list. -/
def reverseBytesInPairs (bs : List Nat) : List Nat :=
  bs.reverse

/-- Model of `n` as exactly `k` little-endian bytes. -/
def natToLEBytes (k n : Nat) : List Nat :=
  reverseBytesInPairs (natToBEBytesPad k n)

/-- Model of `encodeVarInt` from `src/transaction.ts`.  Note that the multi-byte
payloads are emitted by `toString(16).padStart(...)` with **no** byte
reversal, i.e. in big-endian order. -/
def encodeVarInt (num : Nat) : List Nat :=
  if num < 0xfd then
    [num]
  else if num ≤ 0xffff then
    0xfd :: natToBEBytesPad 2 num
  else if num ≤ 0xffffffff then
    0xfe :: natToBEBytesPad 4 num
  else
    0xff :: natToBEBytesPad 8 num

/-- The varint encoder described by the specification's words ("the classic
prefix scheme" with **little-endian** payloads), used only to compare the
spec against the source. -/
def varIntSpecLE (num : Nat) : List Nat :=
  if num < 0xfd then
    [num]
  else if num ≤ 0xffff then
    0xfd :: natToLEBytes 2 num
  else if num ≤ 0xffffffff then
    0xfe :: natToLEBytes 4 num
  else
    0xff :: natToLEBytes 8 num

theorem natToBEBytesAux_congr :
    ∀ {n f g : Nat}, n ≤ f → n ≤ g → natToBEBytesAux f n = natToBEBytesAux g n := by
  intro n
  induction n using Nat.strong_induction_on with
  | _ n ih =>
    intro f g hf hg
    match f, g with
    | 0, 0 => rfl
    | 0, g + 1 =>
      interval_cases n
      simp [natToBEBytesAux]
    | f + 1, 0 =>
      interval_cases n
      simp [natToBEBytesAux]
    | f + 1, g + 1 =>
      by_cases hn : n = 0
      · simp [hn, natToBEBytesAux]
      · have hlt : n / 256 < n := Nat.div_lt_self (Nat.pos_of_ne_zero hn) (by norm_num)
        simp only [natToBEBytesAux, hn, if_false]
        have h1 : n / 256 ≤ f := by omega
        have h2 : n / 256 ≤ g := by omega
        rw [ih (n / 256) hlt h1 h2]

theorem natToBEBytes_unfold (n : Nat) :
    natToBEBytes n = if n = 0 then [] else natToBEBytes (n / 256) ++ [n % 256] := by
  by_cases hn : n = 0
  · simp [hn, natToBEBytes, natToBEBytesAux]
  · obtain ⟨m, rfl⟩ := Nat.exists_eq_succ_of_ne_zero hn
    simp only [hn, if_false, natToBEBytes, natToBEBytesAux]
    have hlt : (m + 1) / 256 < m + 1 := Nat.div_lt_self (Nat.succ_pos m) (by norm_num)
    rw [natToBEBytesAux_congr (by omega) (le_refl _)]

theorem natToBEBytes_zero : natToBEBytes 0 = [] := by
  simp [natToBEBytes_unfold]

theorem natToBEBytes_eq_nil_iff {n : Nat} : natToBEBytes n = [] ↔ n = 0 := by
  constructor
  · intro h
    by_contra hn
    rw [natToBEBytes_unfold] at h
    simp [hn] at h
  · intro h; simp [h, natToBEBytes_zero]

theorem natToBEBytes_length_le {k n : Nat} (h : n < 256 ^ k) :
    (natToBEBytes n).length ≤ k := by
  induction n using Nat.strong_induction_on generalizing k with
  | _ n ih =>
    by_cases hn : n = 0
    · simp [hn, natToBEBytes_zero]
    · rw [natToBEBytes_unfold]
      simp only [hn, if_false]
      have hk : k ≠ 0 := by
        intro hk0
        rw [hk0] at h
        simp at h
        omega
      obtain ⟨k', rfl⟩ := Nat.exists_eq_succ_of_ne_zero hk
      have hdiv : n / 256 < 256 ^ k' := by
        rw [Nat.div_lt_iff_lt_mul (by norm_num)]
        calc n < 256 ^ (k' + 1) := h
        _ = 256 ^ k' * 256 := by ring
      have := ih (n / 256) (Nat.div_lt_self (Nat.pos_of_ne_zero hn) (by norm_num)) hdiv
      simp only [List.length_append, List.length_singleton]
      omega

theorem fromBEBytes_append_singleton (bs : List Nat) (b : Nat) :
    fromBEBytes (bs ++ [b]) = fromBEBytes bs * 256 + b := by
  simp [fromBEBytes, List.foldl_append]

theorem fromBEBytes_natToBEBytes (n : Nat) :
    fromBEBytes (natToBEBytes n) = n := by
  induction n using Nat.strong_induction_on with
  | _ n ih =>
    by_cases hn : n = 0
    · simp [hn, natToBEBytes_zero, fromBEBytes]
    · rw [natToBEBytes_unfold]
      simp only [hn, if_false]
      rw [fromBEBytes_append_singleton,
        ih (n / 256) (Nat.div_lt_self (Nat.pos_of_ne_zero hn) (by norm_num))]
      omega

theorem padToLen_length {k : Nat} {bs : List Nat} (h : bs.length ≤ k) :
    (padToLen k bs).length = k := by
  simp [padToLen]
  omega

theorem natToBEBytesPad_length {k n : Nat} (h : n < 256 ^ k) :
    (natToBEBytesPad k n).length = k :=
  padToLen_length (natToBEBytes_length_le h)

theorem fromBEBytes_replicate_zero_append (k : Nat) (bs : List Nat) :
    fromBEBytes (List.replicate k 0 ++ bs) = fromBEBytes bs := by
  induction k with
  | zero => simp
  | succ k ih =>
    have : List.replicate (k + 1) 0 ++ bs = 0 :: (List.replicate k 0 ++ bs) := by
      simp [List.replicate_succ]
    rw [this]
    simpa [fromBEBytes] using ih

theorem fromBEBytes_natToBEBytesPad (k n : Nat) :
    fromBEBytes (natToBEBytesPad k n) = n := by
  rw [natToBEBytesPad, padToLen, fromBEBytes_replicate_zero_append,
    fromBEBytes_natToBEBytes]

/-- C3: the claim states that the varint encoder emits multi-byte payloads in
little-endian order; the source (`encodeVarInt` in `src/transaction.ts`)
emits them big-endian (`toString(16).padStart(...)` with no byte reversal).
At `n = 256` the code produces bytes `fd 01 00`, while the claimed
little-endian encoding is `fd 00 01`. -/
theorem c3_varint_little_endian_counterexample :
    encodeVarInt 256 = [0xfd, 0x01, 0x00] ∧
    varIntSpecLE 256 = [0xfd, 0x00, 0x01] ∧
    encodeVarInt 256 ≠ varIntSpecLE 256 := by
  refine ⟨by decide, by decide, by decide⟩

/-- C3 amended: for every `n`, the varint encoder produces a single byte for
`n < 0xfd`; the prefix `0xfd` followed by `n` as a 2-byte **big-endian**
value for `0xfd ≤ n ≤ 0xffff`; the prefix `0xfe` followed by a 4-byte
big-endian value for `n ≤ 0xffffffff`; and the prefix `0xff` followed by an
8-byte big-endian value for larger `n` (below `2^64`).  Each payload has the
stated exact length and decodes (big-endian) back to `n`. -/
theorem c3_varint_encoding (n : Nat) :
    (n < 0xfd → encodeVarInt n = [n]) ∧
    (0xfd ≤ n → n ≤ 0xffff →
      encodeVarInt n = 0xfd :: natToBEBytesPad 2 n ∧
      (natToBEBytesPad 2 n).length = 2 ∧ fromBEBytes (natToBEBytesPad 2 n) = n) ∧
    (0xffff < n → n ≤ 0xffffffff →
      encodeVarInt n = 0xfe :: natToBEBytesPad 4 n ∧
      (natToBEBytesPad 4 n).length = 4 ∧ fromBEBytes (natToBEBytesPad 4 n) = n) ∧
    (0xffffffff < n → n < 2 ^ 64 →
      encodeVarInt n = 0xff :: natToBEBytesPad 8 n ∧
      (natToBEBytesPad 8 n).length = 8 ∧ fromBEBytes (natToBEBytesPad 8 n) = n) := by
  refine ⟨?_, ?_, ?_, ?_⟩
  · intro h
    simp [encodeVarInt, h]
  · intro h1 h2
    have hb : ¬ n < 0xfd := by omega
    refine ⟨by simp [encodeVarInt, hb, h2], natToBEBytesPad_length (by norm_num; omega),
      fromBEBytes_natToBEBytesPad 2 n⟩
  · intro h1 h2
    have hb : ¬ n < 0xfd := by omega
    have hb2 : ¬ n ≤ 0xffff := by omega
    refine ⟨by simp [encodeVarInt, hb, hb2, h2], natToBEBytesPad_length (by norm_num; omega),
      fromBEBytes_natToBEBytesPad 4 n⟩
  · intro h1 h2
    have hb : ¬ n < 0xfd := by omega
    have hb2 : ¬ n ≤ 0xffff := by omega
    have hb3 : ¬ n ≤ 0xffffffff := by omega
    refine ⟨by simp [encodeVarInt, hb, hb2, hb3], natToBEBytesPad_length (by norm_num; omega),
      fromBEBytes_natToBEBytesPad 8 n⟩

/-- Witness for the amended C3 theorem, exercising all four size classes at
concrete inputs. -/
theorem c3_varint_encoding_witness :
    encodeVarInt 7 = [7] ∧
    encodeVarInt 0xfd = [0xfd, 0x00, 0xfd] ∧
    encodeVarInt 0x10203 = [0xfe, 0x00, 0x01, 0x02, 0x03] ∧
    encodeVarInt 0x100000000 = [0xff, 0, 0, 0, 1, 0, 0, 0, 0] := by
  refine ⟨(c3_varint_encoding 7).1 (by decide), ?_, ?_, ?_⟩
  · have h := ((c3_varint_encoding 0xfd).2.1 (by decide) (by decide)).1
    rw [h]
    decide
  · have h := ((c3_varint_encoding 0x10203).2.2.1 (by decide) (by decide)).1
    rw [h]
    decide
  · have h := ((c3_varint_encoding 0x100000000).2.2.2 (by decide) (by decide)).1
    rw [h]
    decide

/-! ## Base58 codec (`toBase58` / `fromBase58` in `src/crypto.ts`) -/

/-- The 58-character alphabet from `src/crypto.ts`. -/
def base58Alphabet : List Char :=
  "123456789ABCDEFGHJKLMNPQRSTUVWXYZabcdefghijkmnopqrstuvwxyz".toList

/-- Model of `alphabet[i]` (always called with `i < 58` in the source). -/
def alphaChar (i : Nat) : Char :=
  base58Alphabet.getD i ' '

/-- Fuel-driven base-58 digit extraction for the `while (num > 0n)` loop of
`toBase58`; each iteration prepends `alphabet[num % 58]`, so the resulting
digit list is most-significant first. -/
def b58DigitsAux : Nat → Nat → List Nat
  | 0, _ => []
  | fuel + 1, num => if num = 0 then [] else b58DigitsAux fuel (num / 58) ++ [num % 58]

/-- Base-58 digits of `num`, most-significant first, `[]` for 0. -/
def b58Digits (num : Nat) : List Nat :=
  b58DigitsAux num num

/-- Model of `toBase58` from `src/crypto.ts`: interpret the buffer as a big-endian
number, write it in base 58, prepend one `'1'` per leading zero byte, and
fall back to the single character `"1"` when the result is empty
(`return encoded || '1'`). -/
def toBase58 (buffer : List Nat) : String :=
  let num := fromBEBytes buffer
  let encoded := (b58Digits num).map alphaChar
  let encoded := List.replicate (buffer.takeWhile (· = 0)).length '1' ++ encoded
  if encoded.isEmpty then "1" else String.mk encoded

/-- Model of `alphabet.indexOf(char)`, with `none` for the `-1` (invalid character)
case that makes `fromBase58` throw. -/
def alphaIndex (c : Char) : Option Nat :=
  base58Alphabet.indexOf? c

/-- The digit-accumulation loop of `fromBase58`
(`num = num * 58n + BigInt(index)`, aborting on an invalid character). -/
def fromBase58Num : List Char → Nat → Option Nat
  | [], num => some num
  | c :: cs, num =>
    match alphaIndex c with
    | none => none
    | some i => fromBase58Num cs (num * 58 + i)

/-- Model of `fromBase58` from `src/crypto.ts`: accumulate the base-58 value, emit its
minimal big-endian byte expansion (the `while (num > 0n)` / `unshift` loop),
and prepend one zero byte per leading `'1'` character.  The thrown
`Invalid base58 character` error is modelled as `none`. -/
def fromBase58 (s : String) : Option (List Nat) :=
  match fromBase58Num s.toList 0 with
  | none => none
  | some num =>
    some (List.replicate (s.toList.takeWhile (· = '1')).length 0 ++ natToBEBytes num)

/-- C4 (code bug): the spec requires `toBase58 [] = ""` and the exact round
trip `fromBase58 (toBase58 b) = b` for every buffer including the empty one,
but `toBase58`'s `return encoded || '1'` fallback maps the empty buffer to
`"1"`, colliding with the encoding of `[0x00]`; decoding then yields `[0x00]`,
not `[]`.  (`fromBase58 ""` does return `[]`, so the encoder alone is at
fault, and it is not injective.) -/
theorem c4_base58_empty_buffer_bug :
    toBase58 [] = "1" ∧
    toBase58 [0] = "1" ∧
    fromBase58 (toBase58 []) = some [0] ∧
    some [0] ≠ some ([] : List Nat) ∧
    fromBase58 "" = some [] := by
  refine ⟨by decide, by decide, by decide, by decide, by decide⟩

/-! ## Data model (`src/types.ts`) and coin selector (`buildTransaction`)

Satoshi amounts and confirmation counts are JavaScript numbers holding
integers; they are modelled as `Int`.  `buildTransaction` in the source takes
a floating-point TETSUO amount and immediately floors `amount * 100_000_000`;
the floating-point conversion is outside the claims, so the embedding takes
the resulting integer satoshi amount directly.

`validateAddress` lives in `src/address.ts`, which is not among the provided
sources.  Modelled from the spec: §4.3 says validation rejects with
`InvalidAddress` unless the base58check-decoded payload has the right version
byte and length; since no claim here depends on its internals, it enters as
an abstract boolean predicate parameter `validAddr`. -/

/-- Model of `TransactionInput` from `src/types.ts` (the optional `scriptSig` field is
never set by `buildTransaction` and is omitted; scripts are spliced into the
serialized form by the signer). -/
structure TransactionInput where
  txid : List Nat
  vout : Nat
  sequence : Option Nat
deriving DecidableEq, Repr

/-- Model of `TransactionOutput` from `src/types.ts`. -/
structure TransactionOutput where
  address : String
  value : Int
deriving DecidableEq, Repr

/-- Model of `UTXO` from `src/types.ts`. -/
structure UTXO where
  txid : List Nat
  vout : Nat
  value : Int
  confirmations : Int
  scriptPubKey : Option (List Nat)
deriving DecidableEq, Repr

/-- The errors `buildTransaction` can throw (`InvalidAddressError` via
`validateAddress`, and `InsufficientFundsError` from `src/types.ts`). -/
inductive BuildError
  | invalidAddress (address : String)
  | insufficientFunds (required available : Int)
deriving DecidableEq, Repr

/-- Model of `MIN_FEE` from `src/transaction.ts`. -/
def MIN_FEE : Nat := 25000

/-- Model of `FEE_PER_BYTE` from `src/transaction.ts`. -/
def FEE_PER_BYTE : Nat := 100

/-- The fee estimate used both inside the selection loop and for the final
fee: `Math.max(MIN_FEE, Math.ceil((count*148 + 2*34 + 10) / 1000) * FEE_PER_BYTE)`. -/
def estimatedFee (inputCount : Nat) : Int :=
  (max MIN_FEE (((inputCount * 148 + 2 * 34 + 10 + 999) / 1000) * FEE_PER_BYTE) : Nat)

/-- Total value of a UTXO list. -/
def sumValues (us : List UTXO) : Int :=
  (us.map (·.value)).sum

/-- Stable insertion into a confirmation-sorted list: the incoming element
precedes later elements with equal confirmation count, matching the stable
JavaScript `sort((a, b) => a.confirmations - b.confirmations)`. -/
def insertByConfirmations (u : UTXO) : List UTXO → List UTXO
  | [] => [u]
  | v :: vs =>
    if u.confirmations ≤ v.confirmations then u :: v :: vs
    else v :: insertByConfirmations u vs

/-- Model of `[...utxos].sort((a, b) => a.confirmations - b.confirmations)`:
ascending confirmation count, least-confirmed first. -/
def sortByConfirmations : List UTXO → List UTXO
  | [] => []
  | u :: us => insertByConfirmations u (sortByConfirmations us)

/-- The greedy accumulation loop of `buildTransaction`: push the next UTXO,
add its value, recompute the fee estimate from the grown input count, and
break as soon as the running total covers `amount + estimatedFee`. -/
def selectLoop (amountSatoshis : Int) :
    List UTXO → List UTXO → Int → List UTXO × Int
  | [], selected, total => (selected, total)
  | u :: rest, selected, total =>
    let selected' := selected ++ [u]
    let total' := total + u.value
    if amountSatoshis + estimatedFee selected'.length ≤ total' then (selected', total')
    else selectLoop amountSatoshis rest selected' total'

/-- Model of `buildTransaction` from `src/transaction.ts` (the current module, which
sets `sequence: 0xffffffff` on every input). -/
def buildTransaction (validAddr : String → Bool)
    (fromAddress toAddress : String) (amountSatoshis : Int)
    (utxos : List UTXO) (changeAddress : String) :
    Except BuildError (List TransactionInput × List TransactionOutput × Int) :=
  if !validAddr fromAddress then .error (.invalidAddress fromAddress)
  else if !validAddr toAddress then .error (.invalidAddress toAddress)
  else if !validAddr changeAddress then .error (.invalidAddress changeAddress)
  else
    let sorted := sortByConfirmations utxos
    let sres := selectLoop amountSatoshis sorted [] 0
    let selectedUTXOs := sres.1
    let totalInput := sres.2
    let fee := estimatedFee selectedUTXOs.length
    if totalInput < amountSatoshis + fee then
      .error (.insufficientFunds (amountSatoshis + fee) totalInput)
    else
      let inputs := selectedUTXOs.map
        fun u => TransactionInput.mk u.txid u.vout (some 0xffffffff)
      let change := totalInput - amountSatoshis - fee
      let outputs := [TransactionOutput.mk toAddress amountSatoshis] ++
        (if 0 < change then [TransactionOutput.mk changeAddress change] else [])
      .ok (inputs, outputs, fee)

/-- Model of `buildTransaction` from the legacy duplicate `unnamed/part_001`, which is
byte-for-byte identical except that inputs get the non-final default
`sequence: 0xfffffffe`. -/
def buildTransactionLegacy (validAddr : String → Bool)
    (fromAddress toAddress : String) (amountSatoshis : Int)
    (utxos : List UTXO) (changeAddress : String) :
    Except BuildError (List TransactionInput × List TransactionOutput × Int) :=
  if !validAddr fromAddress then .error (.invalidAddress fromAddress)
  else if !validAddr toAddress then .error (.invalidAddress toAddress)
  else if !validAddr changeAddress then .error (.invalidAddress changeAddress)
  else
    let sorted := sortByConfirmations utxos
    let sres := selectLoop amountSatoshis sorted [] 0
    let selectedUTXOs := sres.1
    let totalInput := sres.2
    let fee := estimatedFee selectedUTXOs.length
    if totalInput < amountSatoshis + fee then
      .error (.insufficientFunds (amountSatoshis + fee) totalInput)
    else
      let inputs := selectedUTXOs.map
        fun u => TransactionInput.mk u.txid u.vout (some 0xfffffffe)
      let change := totalInput - amountSatoshis - fee
      let outputs := [TransactionOutput.mk toAddress amountSatoshis] ++
        (if 0 < change then [TransactionOutput.mk changeAddress change] else [])
      .ok (inputs, outputs, fee)

theorem sumValues_append (a b : List UTXO) :
    sumValues (a ++ b) = sumValues a + sumValues b := by
  simp [sumValues]

theorem insertByConfirmations_perm (u : UTXO) (l : List UTXO) :
    (insertByConfirmations u l).Perm (u :: l) := by
  induction l with
  | nil => simp [insertByConfirmations]
  | cons v vs ih =>
    by_cases h : u.confirmations ≤ v.confirmations
    · simp [insertByConfirmations, h]
    · simp only [insertByConfirmations, h, if_false]
      exact (ih.cons v).trans (List.Perm.swap u v vs)

theorem sortByConfirmations_perm (l : List UTXO) :
    (sortByConfirmations l).Perm l := by
  induction l with
  | nil => simp [sortByConfirmations]
  | cons u us ih =>
    exact (insertByConfirmations_perm u (sortByConfirmations us)).trans (ih.cons u)

theorem insertByConfirmations_pairwise {u : UTXO} {l : List UTXO}
    (h : l.Pairwise (fun a b => a.confirmations ≤ b.confirmations)) :
    (insertByConfirmations u l).Pairwise
      (fun a b => a.confirmations ≤ b.confirmations) := by
  induction l with
  | nil => simp [insertByConfirmations]
  | cons v vs ih =>
    rw [List.pairwise_cons] at h
    obtain ⟨hv, hvs⟩ := h
    by_cases hc : u.confirmations ≤ v.confirmations
    · simp only [insertByConfirmations, hc, if_true]
      rw [List.pairwise_cons]
      refine ⟨?_, List.pairwise_cons.mpr ⟨hv, hvs⟩⟩
      intro x hx
      rcases List.mem_cons.mp hx with hx | hx
      · exact hx ▸ hc
      · exact le_trans hc (hv x hx)
    · simp only [insertByConfirmations, hc, if_false]
      rw [List.pairwise_cons]
      refine ⟨?_, ih hvs⟩
      intro x hx
      have hx' : x ∈ u :: vs := (insertByConfirmations_perm u vs).mem_iff.mp hx
      rcases List.mem_cons.mp hx' with hx' | hx'
      · subst hx'
        omega
      · exact hv x hx'

theorem sortByConfirmations_pairwise (l : List UTXO) :
    (sortByConfirmations l).Pairwise
      (fun a b => a.confirmations ≤ b.confirmations) := by
  induction l with
  | nil => simp [sortByConfirmations]
  | cons u us ih => exact insertByConfirmations_pairwise ih

/-- Full characterisation of the greedy selection loop: starting from an
accumulator `sel` whose running total is `tot`, the loop returns some prefix
extension `sel ++ rest.take k` together with its total; no proper nonempty
intermediate prefix already covered `amount + estimatedFee`, and the loop
stops either because the UTXOs ran out or because the final prefix covers
the recomputed estimate. -/
theorem selectLoop_spec (amount : Int) :
    ∀ (rest sel : List UTXO) (tot : Int), tot = sumValues sel →
    ∃ k, k ≤ rest.length ∧
      (selectLoop amount rest sel tot).1 = sel ++ rest.take k ∧
      (selectLoop amount rest sel tot).2 = sumValues (sel ++ rest.take k) ∧
      (∀ j, 0 < j → j < k →
        sumValues (sel ++ rest.take j) < amount + estimatedFee (sel.length + j)) ∧
      (k = rest.length ∨
        (0 < k ∧ amount + estimatedFee (sel.length + k) ≤ sumValues (sel ++ rest.take k))) := by
  intro rest
  induction rest with
  | nil =>
    intro sel tot htot
    refine ⟨0, le_refl _, by simp [selectLoop], by simp [selectLoop, htot], ?_, Or.inl rfl⟩
    intro j hj0 hj
    omega
  | cons u rest ih =>
    intro sel tot htot
    have hsum : tot + u.value = sumValues (sel ++ [u]) := by
      rw [sumValues_append, htot]
      simp [sumValues]
    have htake : ∀ j : Nat, sel ++ (u :: rest).take (j + 1) = (sel ++ [u]) ++ rest.take j := by
      intro j
      simp [List.take_succ_cons]
    have hlen : (sel ++ [u]).length = sel.length + 1 := by simp
    by_cases hbr : amount + estimatedFee (sel.length + 1) ≤ tot + u.value
    · refine ⟨1, by simp, ?_, ?_, ?_, Or.inr ⟨Nat.one_pos, ?_⟩⟩
      · simp [selectLoop, hbr]
      · simp only [selectLoop, hlen, hbr, if_true]
        rw [hsum]
        simp
      · intro j hj0 hj
        omega
      · rw [htake 0]
        simpa [hsum] using hbr
    · obtain ⟨k', hk'le, h1, h2, h3, h4⟩ := ih (sel ++ [u]) (tot + u.value) hsum
      have hloop : selectLoop amount (u :: rest) sel tot =
          selectLoop amount rest (sel ++ [u]) (tot + u.value) := by
        simp [selectLoop, hbr]
      refine ⟨k' + 1, by simpa using Nat.succ_le_succ hk'le, ?_, ?_, ?_, ?_⟩
      · rw [hloop, h1, htake k']
      · rw [hloop, h2, htake k']
      · intro j hj0 hj
        obtain ⟨i, rfl⟩ : ∃ i, j = i + 1 := ⟨j - 1, by omega⟩
        rw [htake i]
        by_cases hi : i = 0
        · subst hi
          simp only [List.take_zero, List.append_nil]
          rw [← hsum]
          have harg : sel.length + (0 + 1) = sel.length + 1 := by omega
          rw [harg]
          omega
        · have hi' : 0 < i := Nat.pos_of_ne_zero hi
          have hik : i < k' := by omega
          have hstep := h3 i hi' hik
          rw [hlen] at hstep
          have harg : sel.length + 1 + i = sel.length + (i + 1) := by omega
          rw [harg] at hstep
          exact hstep
      · rcases h4 with h4 | ⟨hk'0, h4⟩
        · left
          simp [h4]
        · right
          refine ⟨Nat.succ_pos k', ?_⟩
          rw [htake k']
          rw [hlen] at h4
          have harith : sel.length + 1 + k' = sel.length + (k' + 1) := by omega
          rw [harith] at h4
          exact h4

/-- Inversion of a successful `buildTransaction` run: the emitted pieces are
exactly the ones assembled from the greedy selection. -/
theorem buildTransaction_ok_elim {validAddr : String → Bool}
    {fromAddress toAddress changeAddress : String} {amountSatoshis fee : Int}
    {utxos : List UTXO} {ins : List TransactionInput} {outs : List TransactionOutput}
    (h : buildTransaction validAddr fromAddress toAddress amountSatoshis utxos
      changeAddress = .ok (ins, outs, fee)) :
    ins = (selectLoop amountSatoshis (sortByConfirmations utxos) [] 0).1.map
      (fun u => TransactionInput.mk u.txid u.vout (some 0xffffffff)) ∧
    fee = estimatedFee (selectLoop amountSatoshis (sortByConfirmations utxos) [] 0).1.length ∧
    amountSatoshis + fee ≤ (selectLoop amountSatoshis (sortByConfirmations utxos) [] 0).2 ∧
    outs = [TransactionOutput.mk toAddress amountSatoshis] ++
      (if 0 < (selectLoop amountSatoshis (sortByConfirmations utxos) [] 0).2
            - amountSatoshis - fee
       then [TransactionOutput.mk changeAddress
              ((selectLoop amountSatoshis (sortByConfirmations utxos) [] 0).2
                - amountSatoshis - fee)]
       else []) := by
  unfold buildTransaction at h
  split at h
  · exact absurd h (by simp)
  · split at h
    · exact absurd h (by simp)
    · split at h
      · exact absurd h (by simp)
      · dsimp only at h
        split at h
        · exact absurd h (by simp)
        · rename_i hfee
          simp only [Except.ok.injEq, Prod.mk.injEq] at h
          obtain ⟨hins, houts, hf⟩ := h
          subst hf
          exact ⟨hins.symm, rfl, by omega, houts.symm⟩

/-- Inversion of a failed `buildTransaction` run ending in
`InsufficientFunds`: the loop must have exhausted the whole (sorted) UTXO
list, and the error carries `amount + estimatedFee` for the full input count
together with the total available value. -/
theorem buildTransaction_insufficient_elim {validAddr : String → Bool}
    {fromAddress toAddress changeAddress : String} {amountSatoshis r a : Int}
    {utxos : List UTXO}
    (h : buildTransaction validAddr fromAddress toAddress amountSatoshis utxos
      changeAddress = .error (.insufficientFunds r a)) :
    r = amountSatoshis + estimatedFee utxos.length ∧ a = sumValues utxos := by
  unfold buildTransaction at h
  split at h
  · exact absurd h (by simp)
  · split at h
    · exact absurd h (by simp)
    · split at h
      · exact absurd h (by simp)
      · dsimp only at h
        split at h
        · rename_i hfee
          simp only [Except.error.injEq, BuildError.insufficientFunds.injEq] at h
          obtain ⟨hr, ha⟩ := h
          obtain ⟨k, hk, h1, h2, h3, h4⟩ :=
            selectLoop_spec amountSatoshis (sortByConfirmations utxos) [] 0
              (by simp [sumValues])
          simp only [List.nil_append, List.length_nil, Nat.zero_add] at h1 h2 h3 h4
          have hexh : k = (sortByConfirmations utxos).length := by
            rcases h4 with h4 | ⟨hk0, h4⟩
            · exact h4
            · exfalso
              rw [h1] at hfee
              have hlen : ((sortByConfirmations utxos).take k).length = k := by
                simp [List.length_take]
                omega
              rw [hlen, h2] at hfee
              omega
          have hperm := sortByConfirmations_perm utxos
          have htake : (sortByConfirmations utxos).take k = sortByConfirmations utxos := by
            rw [hexh]
            exact List.take_length _
          have hsum : sumValues (sortByConfirmations utxos) = sumValues utxos := by
            unfold sumValues
            exact List.Perm.sum_eq (hperm.map (·.value))
          have hlenfull :
              (selectLoop amountSatoshis (sortByConfirmations utxos) [] 0).1.length
                = utxos.length := by
            rw [h1, htake]
            exact hperm.length_eq
          constructor
          · rw [← hr, hlenfull]
          · rw [← ha, h2, htake, hsum]
        · exact absurd h (by simp)


/-- C5: `buildTransaction` considers the UTXOs in ascending order of
confirmation count (the sorted list is an ascending permutation of the
input) and greedily accumulates them one at a time: the selected inputs are
the shortest prefix of the sorted list whose total covers
`amount + estimatedFee(count)` with
`estimatedFee(c) = max(MIN_FEE, ceil((c*148 + 2*34 + 10)/1000) * FEE_PER_BYTE)`,
the estimate being recomputed after each addition (no shorter nonempty
prefix covers its own recomputed estimate), stopping early exactly when the
final prefix covers its estimate. -/
theorem c5_greedy_selection (validAddr : String → Bool)
    (fromAddress toAddress changeAddress : String) (amountSatoshis fee : Int)
    (utxos : List UTXO) (ins : List TransactionInput) (outs : List TransactionOutput)
    (h : buildTransaction validAddr fromAddress toAddress amountSatoshis utxos
      changeAddress = .ok (ins, outs, fee)) :
    (sortByConfirmations utxos).Perm utxos ∧
    (sortByConfirmations utxos).Pairwise
      (fun a b => a.confirmations ≤ b.confirmations) ∧
    ∃ k, k ≤ (sortByConfirmations utxos).length ∧
      ins = ((sortByConfirmations utxos).take k).map
        (fun u => TransactionInput.mk u.txid u.vout (some 0xffffffff)) ∧
      (∀ j, 0 < j → j < k →
        sumValues ((sortByConfirmations utxos).take j) <
          amountSatoshis + estimatedFee j) ∧
      (k = (sortByConfirmations utxos).length ∨
        (0 < k ∧ amountSatoshis + estimatedFee k ≤
          sumValues ((sortByConfirmations utxos).take k))) := by
  obtain ⟨hins, hfee, hcov, houts⟩ := buildTransaction_ok_elim h
  obtain ⟨k, hk, h1, h2, h3, h4⟩ :=
    selectLoop_spec amountSatoshis (sortByConfirmations utxos) [] 0 (by simp [sumValues])
  simp only [List.nil_append, List.length_nil, Nat.zero_add] at h1 h2 h3 h4
  exact ⟨sortByConfirmations_perm utxos, sortByConfirmations_pairwise utxos,
    k, hk, by rw [hins, h1], h3, h4⟩

/-- Witness for C5: a concrete successful run (a single 1-TETSUO UTXO,
spending 0.5 TETSUO) satisfying the greedy-selection characterisation. -/
theorem c5_greedy_selection_witness :
    (sortByConfirmations [UTXO.mk [0xaa] 0 100000000 10 none]).Perm
      [UTXO.mk [0xaa] 0 100000000 10 none] ∧
    (sortByConfirmations [UTXO.mk [0xaa] 0 100000000 10 none]).Pairwise
      (fun a b => a.confirmations ≤ b.confirmations) ∧
    ∃ k, k ≤ (sortByConfirmations [UTXO.mk [0xaa] 0 100000000 10 none]).length ∧
      [TransactionInput.mk [0xaa] 0 (some 0xffffffff)] =
        ((sortByConfirmations [UTXO.mk [0xaa] 0 100000000 10 none]).take k).map
          (fun u => TransactionInput.mk u.txid u.vout (some 0xffffffff)) ∧
      (∀ j, 0 < j → j < k →
        sumValues ((sortByConfirmations [UTXO.mk [0xaa] 0 100000000 10 none]).take j) <
          50000000 + estimatedFee j) ∧
      (k = (sortByConfirmations [UTXO.mk [0xaa] 0 100000000 10 none]).length ∨
        (0 < k ∧ (50000000 : Int) + estimatedFee k ≤
          sumValues ((sortByConfirmations [UTXO.mk [0xaa] 0 100000000 10 none]).take k))) :=
  c5_greedy_selection (fun _ => true) "from" "to" "chg" 50000000 25000
    [UTXO.mk [0xaa] 0 100000000 10 none]
    [TransactionInput.mk [0xaa] 0 (some 0xffffffff)]
    [TransactionOutput.mk "to" 50000000, TransactionOutput.mk "chg" 49975000]
    (by rfl)

/-- C6: if `buildTransaction` throws `InsufficientFunds`, the error carries
exactly `amount + estimatedFee utxos.length` as the required total (on a
failing run the loop has exhausted the whole set, so the final fee is
computed over all inputs) and the set's total value as the available total —
and, being an exception, no inputs or outputs are returned.  Conversely,
with valid addresses, non-negative UTXO values, and a total below
`amount + MIN_FEE`, the run does fail this way. -/
theorem c6_insufficient_funds (validAddr : String → Bool)
    (fromAddress toAddress changeAddress : String) (amountSatoshis : Int)
    (utxos : List UTXO) :
    (∀ r a, buildTransaction validAddr fromAddress toAddress amountSatoshis utxos
        changeAddress = .error (.insufficientFunds r a) →
      r = amountSatoshis + estimatedFee utxos.length ∧ a = sumValues utxos) ∧
    ((∀ u ∈ utxos, 0 ≤ u.value) →
      validAddr fromAddress = true → validAddr toAddress = true →
      validAddr changeAddress = true →
      sumValues utxos < amountSatoshis + (MIN_FEE : Nat) →
      buildTransaction validAddr fromAddress toAddress amountSatoshis utxos
        changeAddress = .error (.insufficientFunds
          (amountSatoshis + estimatedFee utxos.length) (sumValues utxos))) := by
  constructor
  · intro r a h
    exact buildTransaction_insufficient_elim h
  · intro hval hf ht hc hsum
    have hperm := sortByConfirmations_perm utxos
    have hvalS : ∀ u ∈ sortByConfirmations utxos, 0 ≤ u.value := by
      intro u hu
      exact hval u (hperm.mem_iff.mp hu)
    have hsumS : sumValues (sortByConfirmations utxos) = sumValues utxos := by
      unfold sumValues
      exact List.Perm.sum_eq (hperm.map (fun u => u.value))
    have hminFee : ∀ c : Nat, (MIN_FEE : Int) ≤ estimatedFee c := by
      intro c
      unfold estimatedFee
      have := Nat.le_max_left MIN_FEE (((c * 148 + 2 * 34 + 10 + 999) / 1000) * FEE_PER_BYTE)
      exact_mod_cast this
    have hprefix : ∀ k : Nat, sumValues ((sortByConfirmations utxos).take k) ≤
        sumValues (sortByConfirmations utxos) := by
      intro k
      have hsplit : sortByConfirmations utxos =
          (sortByConfirmations utxos).take k ++ (sortByConfirmations utxos).drop k :=
        (List.take_append_drop k _).symm
      have hd : 0 ≤ sumValues ((sortByConfirmations utxos).drop k) := by
        unfold sumValues
        apply List.sum_nonneg
        intro x hx
        simp only [List.mem_map] at hx
        obtain ⟨u, hu, rfl⟩ := hx
        exact hvalS u (List.mem_of_mem_drop hu)
      calc sumValues ((sortByConfirmations utxos).take k)
          ≤ sumValues ((sortByConfirmations utxos).take k) +
            sumValues ((sortByConfirmations utxos).drop k) := by omega
        _ = sumValues (sortByConfirmations utxos) := by rw [← sumValues_append, ← hsplit]
    obtain ⟨k, hk, h1, h2, h3, h4⟩ :=
      selectLoop_spec amountSatoshis (sortByConfirmations utxos) [] 0 (by simp [sumValues])
    simp only [List.nil_append, List.length_nil, Nat.zero_add] at h1 h2 h3 h4
    have hexh : k = (sortByConfirmations utxos).length := by
      rcases h4 with h4 | ⟨hk0, h4⟩
      · exact h4
      · exfalso
        have hkle := hprefix k
        have hmf := hminFee k
        omega
    have htakeAll : (sortByConfirmations utxos).take k = sortByConfirmations utxos := by
      rw [hexh]
      exact List.take_length _
    have hlenAll : (selectLoop amountSatoshis (sortByConfirmations utxos) [] 0).1.length =
        utxos.length := by
      rw [h1, htakeAll]
      exact hperm.length_eq
    have htot : (selectLoop amountSatoshis (sortByConfirmations utxos) [] 0).2 =
        sumValues utxos := by
      rw [h2, htakeAll, hsumS]
    unfold buildTransaction
    simp only [hf, ht, hc, Bool.not_true, Bool.false_eq_true, if_false]
    rw [hlenAll, htot]
    have hfail : sumValues utxos < amountSatoshis + estimatedFee utxos.length := by
      have := hminFee utxos.length
      omega
    simp only [hfail, if_true]

/-- Witness for C6: both directions at concrete inputs — a single
5000-satoshi UTXO cannot cover a 1,000,000-satoshi spend, and the raised
error carries required = 1,000,000 + 25,000 and available = 5,000. -/
theorem c6_insufficient_funds_witness :
    buildTransaction (fun _ => true) "from" "to" 1000000
        [UTXO.mk [0xbb] 1 5000 3 none] "chg" =
      .error (.insufficientFunds
        (1000000 + estimatedFee [UTXO.mk [0xbb] 1 5000 3 none].length)
        (sumValues [UTXO.mk [0xbb] 1 5000 3 none])) ∧
    (1000000 : Int) + estimatedFee [UTXO.mk [0xbb] 1 5000 3 none].length = 1025000 ∧
    sumValues [UTXO.mk [0xbb] 1 5000 3 none] = 5000 := by
  refine ⟨(c6_insufficient_funds (fun _ => true) "from" "to" "chg" 1000000
    [UTXO.mk [0xbb] 1 5000 3 none]).2 (by decide) rfl rfl rfl (by decide), ?_, ?_⟩
  · decide
  · decide


/-- C7 counterexample: the claim says every emitted input carries the
chain's **non-final default** sequence value.  The non-final default is
`0xfffffffe` — it is what the legacy duplicate of the builder
(`unnamed/part_001`) emits — but the current `buildTransaction` in
`src/transaction.ts` sets the final sequence `0xffffffff` instead.  On a
concrete run the two builders disagree, and the main builder's sequence is
not the non-final default. -/
theorem c7_sequence_counterexample :
    buildTransaction (fun _ => true) "from" "to" 50000000
        [UTXO.mk [0xaa] 0 100000000 10 none] "chg" =
      .ok ([TransactionInput.mk [0xaa] 0 (some 0xffffffff)],
        [TransactionOutput.mk "to" 50000000, TransactionOutput.mk "chg" 49975000],
        25000) ∧
    buildTransactionLegacy (fun _ => true) "from" "to" 50000000
        [UTXO.mk [0xaa] 0 100000000 10 none] "chg" =
      .ok ([TransactionInput.mk [0xaa] 0 (some 0xfffffffe)],
        [TransactionOutput.mk "to" 50000000, TransactionOutput.mk "chg" 49975000],
        25000) ∧
    some (0xffffffff : Nat) ≠ some (0xfffffffe : Nat) := by
  refine ⟨by rfl, by rfl, by decide⟩

/-- C7 amended: on every successful run of `buildTransaction` (the current
module), every emitted input has its sequence set to `0xffffffff` (the final
sequence value, not the non-final default `0xfffffffe` used by the legacy
duplicate builder), and a change output is appended if and only if
`total - amount - fee > 0`; otherwise the outputs are exactly the single
spend output, so a zero-value change output is never emitted. -/
theorem c7_sequence_and_change (validAddr : String → Bool)
    (fromAddress toAddress changeAddress : String) (amountSatoshis fee : Int)
    (utxos : List UTXO) (ins : List TransactionInput) (outs : List TransactionOutput)
    (h : buildTransaction validAddr fromAddress toAddress amountSatoshis utxos
      changeAddress = .ok (ins, outs, fee)) :
    (∀ i ∈ ins, i.sequence = some 0xffffffff) ∧
    (0 < (selectLoop amountSatoshis (sortByConfirmations utxos) [] 0).2
        - amountSatoshis - fee →
      outs = [TransactionOutput.mk toAddress amountSatoshis,
        TransactionOutput.mk changeAddress
          ((selectLoop amountSatoshis (sortByConfirmations utxos) [] 0).2
            - amountSatoshis - fee)]) ∧
    ((selectLoop amountSatoshis (sortByConfirmations utxos) [] 0).2
        - amountSatoshis - fee ≤ 0 →
      outs = [TransactionOutput.mk toAddress amountSatoshis]) ∧
    (∀ o ∈ outs.tail, 0 < o.value) := by
  obtain ⟨hins, hfee, hcov, houts⟩ := buildTransaction_ok_elim h
  refine ⟨?_, ?_, ?_, ?_⟩
  · intro i hi
    rw [hins] at hi
    simp only [List.mem_map] at hi
    obtain ⟨u, hu, rfl⟩ := hi
    rfl
  · intro hpos
    rw [houts]
    simp [hpos]
  · intro hnonpos
    rw [houts]
    have : ¬ 0 < (selectLoop amountSatoshis (sortByConfirmations utxos) [] 0).2
        - amountSatoshis - fee := by omega
    simp [this]
  · intro o ho
    rw [houts] at ho
    by_cases hpos : 0 < (selectLoop amountSatoshis (sortByConfirmations utxos) [] 0).2
        - amountSatoshis - fee
    · simp only [hpos, if_true, List.singleton_append, List.tail_cons] at ho
      simp only [List.mem_singleton] at ho
      subst ho
      exact hpos
    · simp only [hpos, if_false, List.append_nil, List.tail_cons] at ho
      exact absurd ho (List.not_mem_nil o)

/-- Witness for the amended C7 theorem: the run of
`c7_sequence_counterexample`, where the change `49975000 > 0` produces the
two-output form. -/
theorem c7_sequence_and_change_witness :
    (∀ i ∈ [TransactionInput.mk [0xaa] 0 (some 0xffffffff)],
      i.sequence = some 0xffffffff) ∧
    (0 < (selectLoop 50000000
        (sortByConfirmations [UTXO.mk [0xaa] 0 100000000 10 none]) [] 0).2
        - 50000000 - 25000 →
      [TransactionOutput.mk "to" 50000000, TransactionOutput.mk "chg" 49975000] =
        [TransactionOutput.mk "to" 50000000,
          TransactionOutput.mk "chg"
            ((selectLoop 50000000
              (sortByConfirmations [UTXO.mk [0xaa] 0 100000000 10 none]) [] 0).2
              - 50000000 - 25000)]) ∧
    ((selectLoop 50000000
        (sortByConfirmations [UTXO.mk [0xaa] 0 100000000 10 none]) [] 0).2
        - 50000000 - 25000 ≤ 0 →
      [TransactionOutput.mk "to" 50000000, TransactionOutput.mk "chg" 49975000] =
        [TransactionOutput.mk "to" 50000000]) ∧
    (∀ o ∈ [TransactionOutput.mk "to" 50000000,
        TransactionOutput.mk "chg" 49975000].tail, 0 < o.value) :=
  c7_sequence_and_change (fun _ => true) "from" "to" "chg" 50000000 25000
    [UTXO.mk [0xaa] 0 100000000 10 none]
    [TransactionInput.mk [0xaa] 0 (some 0xffffffff)]
    [TransactionOutput.mk "to" 50000000, TransactionOutput.mk "chg" 49975000]
    (by rfl)

/-! ## DER signature encoding (`encodeDERSignature` in `src/transaction.ts`)

The source operates on hex strings: the callers pass
`signature.r.toString(16).padStart(64, '0')` (64 chars = 32 bytes).  The
`replace` of leading zeros plus the odd-length re-pad pair strips leading
zero **characters** and restores byte alignment, which on an even-length hex
string is exactly stripping leading zero **bytes**; the `toUpperCase()` on
the low-S hex is numerically irrelevant.  `parseInt` of an empty string is
`NaN` and `NaN > 0x7f` is false, so an all-zero integer stays empty,
matching the `[]` case here. -/

/-- The secp256k1 curve order constant `curveOrder` from `encodeDERSignature`. -/
def nValue : Nat :=
  0xFFFFFFFFFFFFFFFFFFFFFFFFFFFFFFFEBAAEDCE6AF48A03BBFD25E8CD0364141

/-- Model of `nHalf = nValue / 2n` (BigInt division truncates). -/
def nHalf : Nat := nValue / 2

/-- Leading-zero stripping plus conditional `00` prefix applied to each of
`r` and `s` inside `encodeDERSignature`. -/
def derTrim (bs : List Nat) : List Nat :=
  let bs := bs.dropWhile (· = 0)
  match bs with
  | [] => []
  | b :: _ => if 0x7f < b then 0 :: bs else bs

/-- Model of `encodeDERSignature` from `src/transaction.ts`: low-S canonicalisation
followed by minimal DER encoding of both integers.  `rBytes`/`sBytes` are the
32-byte (64-hex-char) strings the callers pass in. -/
def encodeDERSignature (rBytes sBytes : List Nat) : List Nat :=
  let sValue := fromBEBytes sBytes
  let sBytes := if nHalf < sValue then natToBEBytesPad 32 (nValue - sValue) else sBytes
  let rB := derTrim rBytes
  let sB := derTrim sBytes
  let contentBytes := (2 + 2 + 2 * rB.length + 2 + 2 + 2 * sB.length) / 2
  0x30 :: contentBytes :: 0x02 :: rB.length :: (rB ++ 0x02 :: sB.length :: sB)

/-- The canonical low-S value the claim describes. -/
def lowS (s : Nat) : Nat :=
  if nHalf < s then nValue - s else s

/-- The claim's minimal-encoding property: leading zero bytes stripped, a
single `0x00` re-added only when the high byte has its sign bit set. -/
def minimalDER : List Nat → Prop
  | [] => True
  | [b] => b ≠ 0 ∧ b ≤ 0x7f
  | b :: b2 :: _ => (b = 0 → 0x80 ≤ b2) ∧ (b ≠ 0 → b ≤ 0x7f)

theorem natToBEBytes_head_ne_zero {n h : Nat} {t : List Nat}
    (he : natToBEBytes n = h :: t) : h ≠ 0 := by
  induction n using Nat.strong_induction_on generalizing h t with
  | _ n ih =>
    rw [natToBEBytes_unfold] at he
    by_cases hn : n = 0
    · simp [hn] at he
    · simp only [hn, if_false] at he
      by_cases hd : n / 256 = 0
      · rw [hd, natToBEBytes_zero, List.nil_append] at he
        have hlt : n < 256 := by omega
        rw [Nat.mod_eq_of_lt hlt] at he
        injection he.symm with h1 h2
        omega
      · obtain ⟨h', t', ht'⟩ : ∃ h' t', natToBEBytes (n / 256) = h' :: t' := by
          rcases hh : natToBEBytes (n / 256) with _ | ⟨h', t'⟩
          · exact absurd (natToBEBytes_eq_nil_iff.mp hh) hd
          · exact ⟨h', t', rfl⟩
        rw [ht'] at he
        simp only [List.cons_append, List.cons.injEq] at he
        have := ih (n / 256) (Nat.div_lt_self (Nat.pos_of_ne_zero hn) (by norm_num)) ht'
        omega

theorem dropWhile_zero_replicate_append (k : Nat) (bs : List Nat) :
    (List.replicate k 0 ++ bs).dropWhile (· = 0) = bs.dropWhile (· = 0) := by
  induction k with
  | zero => simp
  | succ k ih =>
    rw [List.replicate_succ, List.cons_append, List.dropWhile_cons]
    simp [ih]

theorem dropWhile_zero_natToBEBytes (v : Nat) :
    (natToBEBytes v).dropWhile (· = 0) = natToBEBytes v := by
  rcases hh : natToBEBytes v with _ | ⟨h, t⟩
  · simp
  · rw [List.dropWhile_cons]
    have := natToBEBytes_head_ne_zero hh
    simp [this]

theorem derTrim_natToBEBytesPad (k v : Nat) :
    derTrim (natToBEBytesPad k v) =
      match natToBEBytes v with
      | [] => []
      | b :: t => if 0x7f < b then 0 :: b :: t else b :: t := by
  unfold derTrim natToBEBytesPad padToLen
  rw [dropWhile_zero_replicate_append, dropWhile_zero_natToBEBytes]
  rcases natToBEBytes v with _ | ⟨b, t⟩
  · rfl
  · rfl

theorem fromBEBytes_cons_zero (bs : List Nat) :
    fromBEBytes (0 :: bs) = fromBEBytes bs := by
  simp [fromBEBytes]

theorem fromBEBytes_derTrim_pad (k v : Nat) :
    fromBEBytes (derTrim (natToBEBytesPad k v)) = v := by
  rw [derTrim_natToBEBytesPad]
  rcases hh : natToBEBytes v with _ | ⟨b, t⟩
  · have := natToBEBytes_eq_nil_iff.mp hh
    simp [this, fromBEBytes]
  · by_cases hb : 0x7f < b
    · simp only [hb, if_true]
      rw [fromBEBytes_cons_zero, ← hh, fromBEBytes_natToBEBytes]
    · simp only [hb, if_false]
      rw [← hh, fromBEBytes_natToBEBytes]

theorem natToBEBytes_byte_lt {n : Nat} : ∀ b ∈ natToBEBytes n, b < 256 := by
  induction n using Nat.strong_induction_on with
  | _ n ih =>
    intro b hb
    rw [natToBEBytes_unfold] at hb
    by_cases hn : n = 0
    · simp [hn] at hb
    · simp only [hn, if_false, List.mem_append, List.mem_singleton] at hb
      rcases hb with hb | hb
      · exact ih (n / 256) (Nat.div_lt_self (Nat.pos_of_ne_zero hn) (by norm_num)) b hb
      · subst hb
        exact Nat.mod_lt _ (by norm_num)

theorem minimalDER_derTrim_pad (k v : Nat) :
    minimalDER (derTrim (natToBEBytesPad k v)) := by
  rw [derTrim_natToBEBytesPad]
  rcases hh : natToBEBytes v with _ | ⟨b, t⟩
  · simp [minimalDER]
  · have hb0 : b ≠ 0 := natToBEBytes_head_ne_zero hh
    have hblt : b < 256 := natToBEBytes_byte_lt b (hh ▸ List.mem_cons_self b t)
    by_cases hb : 0x7f < b
    · simp only [hb, if_true]
      exact ⟨fun _ => by omega, fun hne => absurd rfl hne⟩
    · simp only [hb, if_false]
      cases t with
      | nil => exact ⟨hb0, by omega⟩
      | cons b2 t2 => exact ⟨fun h0 => absurd h0 hb0, fun _ => by omega⟩

/-- C8: for every `(r, s)` with `s` below the curve order (as ECDSA
produces), the DER encoder emits `30 len 02 rLen r 02 sLen s` where the
encoded `s` integer is `lowS s` — i.e. `curveOrder - s` whenever
`s > curveOrder/2`, and `s` itself otherwise — which is always
`≤ curveOrder/2`; both integers are minimally encoded (leading zero bytes
stripped, one `0x00` re-added exactly when the high byte is `≥ 0x80`), and
both decode back to their values. -/
theorem c8_der_low_s (r s : Nat) (hr : r < nValue) (hs : s < nValue) :
    encodeDERSignature (natToBEBytesPad 32 r) (natToBEBytesPad 32 s) =
      0x30 :: (4 + (derTrim (natToBEBytesPad 32 r)).length +
          (derTrim (natToBEBytesPad 32 (lowS s))).length) ::
        0x02 :: (derTrim (natToBEBytesPad 32 r)).length ::
        (derTrim (natToBEBytesPad 32 r) ++
          0x02 :: (derTrim (natToBEBytesPad 32 (lowS s))).length ::
          derTrim (natToBEBytesPad 32 (lowS s))) ∧
    fromBEBytes (derTrim (natToBEBytesPad 32 (lowS s))) = lowS s ∧
    fromBEBytes (derTrim (natToBEBytesPad 32 r)) = r ∧
    lowS s ≤ nValue / 2 ∧
    (nValue / 2 < s → lowS s = nValue - s) ∧
    (s ≤ nValue / 2 → lowS s = s) ∧
    minimalDER (derTrim (natToBEBytesPad 32 r)) ∧
    minimalDER (derTrim (natToBEBytesPad 32 (lowS s))) := by
  have hodd : nValue = 2 * (nValue / 2) + 1 := by decide
  have hpadS : fromBEBytes (natToBEBytesPad 32 s) = s := fromBEBytes_natToBEBytesPad 32 s
  have hsplit : encodeDERSignature (natToBEBytesPad 32 r) (natToBEBytesPad 32 s) =
      0x30 :: ((2 + 2 + 2 * (derTrim (natToBEBytesPad 32 r)).length + 2 + 2 +
          2 * (derTrim (natToBEBytesPad 32 (lowS s))).length) / 2) ::
        0x02 :: (derTrim (natToBEBytesPad 32 r)).length ::
        (derTrim (natToBEBytesPad 32 r) ++
          0x02 :: (derTrim (natToBEBytesPad 32 (lowS s))).length ::
          derTrim (natToBEBytesPad 32 (lowS s))) := by
    unfold encodeDERSignature lowS nHalf
    rw [hpadS]
    by_cases hcase : nValue / 2 < s
    · simp only [hcase, if_true]
    · simp only [hcase, if_false]
  refine ⟨?_, fromBEBytes_derTrim_pad 32 (lowS s), fromBEBytes_derTrim_pad 32 r, ?_, ?_, ?_,
    minimalDER_derTrim_pad 32 r, minimalDER_derTrim_pad 32 (lowS s)⟩
  · rw [hsplit]
    have harith : ∀ a b : Nat, (2 + 2 + 2 * a + 2 + 2 + 2 * b) / 2 = 4 + a + b := by
      intro a b
      omega
    rw [harith]
  · unfold lowS nHalf
    by_cases hcase : nValue / 2 < s
    · simp only [hcase, if_true]
      omega
    · simp only [hcase, if_false]
      omega
  · intro h
    unfold lowS nHalf
    simp [h]
  · intro h
    unfold lowS nHalf
    have hno : ¬ nValue / 2 < s := by omega
    simp [hno]

/-- Witness for C8 at a concrete high-S pair: `r = 1`,
`s = nValue - 5 > nValue/2` is replaced by `5`, and the full DER blob is
`30 06 02 01 01 02 01 05`. -/
theorem c8_der_low_s_witness :
    encodeDERSignature (natToBEBytesPad 32 1) (natToBEBytesPad 32 (nValue - 5)) =
      0x30 :: (4 + (derTrim (natToBEBytesPad 32 1)).length +
          (derTrim (natToBEBytesPad 32 (lowS (nValue - 5)))).length) ::
        0x02 :: (derTrim (natToBEBytesPad 32 1)).length ::
        (derTrim (natToBEBytesPad 32 1) ++
          0x02 :: (derTrim (natToBEBytesPad 32 (lowS (nValue - 5)))).length ::
          derTrim (natToBEBytesPad 32 (lowS (nValue - 5)))) ∧
    lowS (nValue - 5) = 5 ∧
    encodeDERSignature (natToBEBytesPad 32 1) (natToBEBytesPad 32 (nValue - 5)) =
      [0x30, 6, 0x02, 1, 1, 0x02, 1, 5] := by
  refine ⟨(c8_der_low_s 1 (nValue - 5) (by decide) (by decide)).1, by decide, by decide⟩

/-! ## Transaction serialisation (`createTransactionHex`) and offset walking
(`findOutputsPositionInHex`), both from `src/transaction.ts`.

The source counts hex characters; the byte model halves every offset
(`pos += 8` becomes `+ 4`, `pos += 64` becomes `+ 32`, and so on).  Byte
reads past the end of the hex string would produce `NaN` in JavaScript and
poison the position; that situation is unreachable for the well-formed
transactions the theorems quantify over, and is modelled by reading `0`. -/

/-- Model of `reverseTxid` from `src/transaction.ts`: byte-pair reversal of the
64-hex-char txid. -/
def reverseTxid (txid : List Nat) : List Nat :=
  txid.reverse

/-- Model of `createPayToPubKeyHashScript`: `OP_DUP OP_HASH160 <push 20> <hash160>
OP_EQUALVERIFY OP_CHECKSIG`. -/
def createPayToPubKeyHashScript (h160 : List Nat) : List Nat :=
  [0x76, 0xa9, 0x14] ++ h160 ++ [0x88, 0xac]

/-- The script field serialised for input `i`: the caller-supplied
`scriptPubKeys[i]` when present and non-empty (JavaScript truthiness),
otherwise the single zero length byte of an unsigned input. -/
def inputScriptField (scriptPubKeys : Option (List (List Nat))) (i : Nat) : List Nat :=
  match scriptPubKeys with
  | none => [0x00]
  | some sps =>
    match sps.getD i [] with
    | [] => [0x00]
    | sp => encodeVarInt sp.length ++ sp

/-- One serialised input of `createTransactionHex`: reversed txid, 4-byte
little-endian vout, script field, 4-byte little-endian sequence
(defaulting to `0xffffffff`). -/
def encodeInputAt (scriptPubKeys : Option (List (List Nat))) (i : Nat)
    (input : TransactionInput) : List Nat :=
  reverseTxid input.txid ++ natToLEBytes 4 input.vout ++
    inputScriptField scriptPubKeys i ++
    natToLEBytes 4 (input.sequence.getD 0xffffffff)

/-- One serialised output: 8-byte little-endian value followed by the
P2PKH locking script for the destination address (`addressToHash160` lives
in the absent `src/address.ts` and is abstracted as `a2h`; the claims never
depend on its internals).  Output values are non-negative in every reachable
call, hence the `Int.toNat`. -/
def encodeOutput (a2h : String → List Nat) (o : TransactionOutput) : List Nat :=
  let spk := createPayToPubKeyHashScript (a2h o.address)
  natToLEBytes 8 o.value.toNat ++ encodeVarInt spk.length ++ spk

/-- Model of `createTransactionHex` from `src/transaction.ts`: version, varint input
count, serialised inputs, varint output count, serialised outputs,
locktime. -/
def createTransactionHex (a2h : String → List Nat)
    (inputs : List TransactionInput) (outputs : List TransactionOutput)
    (scriptPubKeys : Option (List (List Nat))) : List Nat :=
  [0x01, 0x00, 0x00, 0x00] ++
  encodeVarInt inputs.length ++
  (inputs.enum.map (fun p => encodeInputAt scriptPubKeys p.1 p.2)).flatten ++
  encodeVarInt outputs.length ++
  (outputs.map (encodeOutput a2h)).flatten ++
  [0x00, 0x00, 0x00, 0x00]

/-- Model of `transactionHex[2*p .. 2*p+2]` as a byte (out-of-range reads modelled
as 0, see the section comment). -/
def readByte (tx : List Nat) (p : Nat) : Nat :=
  (tx.get? p).getD 0

/-- Model of `parseInt(transactionHex.slice(2*p, 2*(p+k)), 16)`: big-endian value of
`k` bytes at position `p`. -/
def sliceBE (tx : List Nat) (p k : Nat) : Nat :=
  fromBEBytes ((tx.drop p).take k)

/-- The per-input walk of `findOutputsPositionInHex`: skip txid (32) and
vout (4), read the script-length varint (big-endian payload, matching
`parseInt`), skip the script and the sequence (4). -/
def skipInputs (tx : List Nat) : Nat → Nat → Nat
  | pos, 0 => pos
  | pos, count + 1 =>
    if readByte tx (pos + 32 + 4) < 0xfd then
      skipInputs tx (pos + 32 + 4 + 1 + readByte tx (pos + 32 + 4) + 4) count
    else if readByte tx (pos + 32 + 4) = 0xfd then
      skipInputs tx (pos + 32 + 4 + 3 + sliceBE tx (pos + 32 + 4 + 1) 2 + 4) count
    else if readByte tx (pos + 32 + 4) = 0xfe then
      skipInputs tx (pos + 32 + 4 + 5 + sliceBE tx (pos + 32 + 4 + 1) 4 + 4) count
    else
      skipInputs tx (pos + 32 + 4 + 9 + sliceBE tx (pos + 32 + 4 + 1) 8 + 4) count

/-- Model of `findOutputsPositionInHex` from `src/transaction.ts` (positions in
bytes; the source's character positions are exactly twice these).  The
source compares the input-count byte with the lowercase string `'fd'`,
which on the lowercase hex it is fed coincides with the numeric comparison
used here. -/
def findOutputsPositionInHex (tx : List Nat) (inputCount : Nat) : Nat :=
  let startPos :=
    if readByte tx 4 < 0xfd then 4 + 1
    else if readByte tx 4 = 0xfd then 4 + 3
    else if readByte tx 4 = 0xfe then 4 + 5
    else 4 + 9
  skipInputs tx startPos inputCount

/-- Shape of a serialised script field: either the single zero byte of an
unsigned input, or a varint length prefix followed by the script bytes. -/
def ScriptFieldShape (field : List Nat) : Prop :=
  field = [0x00] ∨
  ∃ sp : List Nat, sp ≠ [] ∧ sp.length < 2 ^ 64 ∧ field = encodeVarInt sp.length ++ sp

/-- Shape of a serialised input: 36 fixed bytes (txid + vout), a script
field, 4 sequence bytes. -/
def InputEncShape (e : List Nat) : Prop :=
  ∃ pre field post, e = pre ++ (field ++ post) ∧
    pre.length = 36 ∧ post.length = 4 ∧ ScriptFieldShape field

theorem natToLEBytes_length {k n : Nat} (h : n < 256 ^ k) :
    (natToLEBytes k n).length = k := by
  simp [natToLEBytes, reverseBytesInPairs, natToBEBytesPad_length h]

theorem drop_pos_add (tx : List Nat) (pos j : Nat) :
    tx.drop (pos + j) = (tx.drop pos).drop j := by
  rw [List.drop_drop]

theorem readByte_drop (tx : List Nat) (p : Nat) :
    readByte tx p = ((tx.drop p)[0]?).getD 0 := by
  unfold readByte
  rw [List.get?_eq_getElem?, List.getElem?_drop]
  norm_num

theorem encodeVarInt_length_pos (n : Nat) : 0 < (encodeVarInt n).length := by
  unfold encodeVarInt
  by_cases h1 : n < 0xfd
  · simp [h1]
  · by_cases h2 : n ≤ 0xffff
    · simp [h1, h2]
    · by_cases h3 : n ≤ 0xffffffff
      · simp [h1, h2, h3]
      · simp [h1, h2, h3]

/-- One step of `skipInputs` across a well-shaped input encoding advances
the position by exactly the encoding's length. -/
theorem skipInputs_step (tx : List Nat) (pos count : Nat) (e rest : List Nat)
    (hdrop : tx.drop pos = e ++ rest) (hshape : InputEncShape e) :
    skipInputs tx pos (count + 1) = skipInputs tx (pos + e.length) count ∧
    tx.drop (pos + e.length) = rest := by
  obtain ⟨pre, field, post, he, hpre, hpost, hf⟩ := hshape
  have hdropLen : tx.drop (pos + e.length) = rest := by
    rw [drop_pos_add, hdrop, List.drop_left' rfl]
  have hdrop36 : tx.drop (pos + 36) = field ++ (post ++ rest) := by
    rw [drop_pos_add, hdrop, he, List.append_assoc pre (field ++ post) rest,
      List.drop_left' hpre, List.append_assoc]
  have hlen : e.length = 36 + (field.length + 4) := by
    rw [he]
    simp [hpre, hpost]
  have h36 : pos + 32 + 4 = pos + 36 := by omega
  rcases hf with hf | ⟨sp, hsp0, hsp64, hf⟩
  · -- unsigned input: script field is the single byte 0x00
    have hb : readByte tx (pos + 32 + 4) = 0 := by
      rw [h36, readByte_drop, hdrop36, hf]
      simp
    have hflen : field.length = 1 := by rw [hf]; rfl
    refine ⟨?_, hdropLen⟩
    rw [skipInputs, hb, if_pos (by norm_num)]
    have heq : pos + 32 + 4 + 1 + 0 + 4 = pos + e.length := by omega
    rw [heq]
  · -- script present: varint length prefix followed by the script bytes
    have hL0 : 0 < sp.length := List.length_pos.mpr hsp0
    have hdrop37 : tx.drop (pos + 36 + 1) =
        (encodeVarInt sp.length).drop 1 ++ (sp ++ (post ++ rest)) := by
      rw [drop_pos_add tx (pos + 36) 1, hdrop36, hf, List.append_assoc,
        List.drop_append_of_le_length (encodeVarInt_length_pos sp.length)]
    have hfieldlen : field.length = (encodeVarInt sp.length).length + sp.length := by
      rw [hf]
      simp
    by_cases h1 : sp.length < 0xfd
    · have hvar : encodeVarInt sp.length = [sp.length] := by
        unfold encodeVarInt
        simp [h1]
      have hb : readByte tx (pos + 32 + 4) = sp.length := by
        rw [h36, readByte_drop, hdrop36, hf, hvar]
        simp
      have hvlen : (encodeVarInt sp.length).length = 1 := by rw [hvar]; rfl
      refine ⟨?_, hdropLen⟩
      rw [skipInputs, hb, if_pos h1]
      have heq : pos + 32 + 4 + 1 + sp.length + 4 = pos + e.length := by omega
      rw [heq]
    · by_cases h2 : sp.length ≤ 0xffff
      · have hvar : encodeVarInt sp.length = 0xfd :: natToBEBytesPad 2 sp.length := by
          unfold encodeVarInt
          simp [h1, h2]
        have hb : readByte tx (pos + 32 + 4) = 0xfd := by
          rw [h36, readByte_drop, hdrop36, hf, hvar]
          simp
        have hpad : (natToBEBytesPad 2 sp.length).length = 2 :=
          natToBEBytesPad_length (by norm_num; omega)
        have hvlen : (encodeVarInt sp.length).length = 3 := by
          rw [hvar]
          simp [hpad]
        have hslice : sliceBE tx (pos + 32 + 4 + 1) 2 = sp.length := by
          unfold sliceBE
          have h37 : pos + 32 + 4 + 1 = pos + 36 + 1 := by omega
          rw [h37, hdrop37, hvar, List.drop_succ_cons, List.drop_zero,
            List.take_left' hpad, fromBEBytes_natToBEBytesPad]
        refine ⟨?_, hdropLen⟩
        rw [skipInputs, hb, if_neg (by norm_num), if_pos rfl, hslice]
        have heq : pos + 32 + 4 + 3 + sp.length + 4 = pos + e.length := by omega
        rw [heq]
      · by_cases h3 : sp.length ≤ 0xffffffff
        · have hvar : encodeVarInt sp.length = 0xfe :: natToBEBytesPad 4 sp.length := by
            unfold encodeVarInt
            simp [h1, h2, h3]
          have hb : readByte tx (pos + 32 + 4) = 0xfe := by
            rw [h36, readByte_drop, hdrop36, hf, hvar]
            simp
          have hpad : (natToBEBytesPad 4 sp.length).length = 4 :=
            natToBEBytesPad_length (by norm_num; omega)
          have hvlen : (encodeVarInt sp.length).length = 5 := by
            rw [hvar]
            simp [hpad]
          have hslice : sliceBE tx (pos + 32 + 4 + 1) 4 = sp.length := by
            unfold sliceBE
            have h37 : pos + 32 + 4 + 1 = pos + 36 + 1 := by omega
            rw [h37, hdrop37, hvar, List.drop_succ_cons, List.drop_zero,
              List.take_left' hpad, fromBEBytes_natToBEBytesPad]
          refine ⟨?_, hdropLen⟩
          rw [skipInputs, hb, if_neg (by norm_num), if_neg (by norm_num), if_pos rfl, hslice]
          have heq : pos + 32 + 4 + 5 + sp.length + 4 = pos + e.length := by omega
          rw [heq]
        · have hvar : encodeVarInt sp.length = 0xff :: natToBEBytesPad 8 sp.length := by
            unfold encodeVarInt
            simp [h1, h2, h3]
          have hb : readByte tx (pos + 32 + 4) = 0xff := by
            rw [h36, readByte_drop, hdrop36, hf, hvar]
            simp
          have hpad : (natToBEBytesPad 8 sp.length).length = 8 :=
            natToBEBytesPad_length (by norm_num; omega)
          have hvlen : (encodeVarInt sp.length).length = 9 := by
            rw [hvar]
            simp [hpad]
          have hslice : sliceBE tx (pos + 32 + 4 + 1) 8 = sp.length := by
            unfold sliceBE
            have h37 : pos + 32 + 4 + 1 = pos + 36 + 1 := by omega
            rw [h37, hdrop37, hvar, List.drop_succ_cons, List.drop_zero,
              List.take_left' hpad, fromBEBytes_natToBEBytesPad]
          refine ⟨?_, hdropLen⟩
          rw [skipInputs, hb, if_neg (by norm_num), if_neg (by norm_num),
            if_neg (by norm_num), hslice]
          have heq : pos + 32 + 4 + 9 + sp.length + 4 = pos + e.length := by omega
          rw [heq]


/-- The input-skipping loop across a list of well-shaped input encodings
lands exactly at the end of the input section. -/
theorem skipInputs_spec (tx : List Nat) :
    ∀ (encs : List (List Nat)) (pos : Nat) (rest : List Nat),
    (∀ e ∈ encs, InputEncShape e) →
    tx.drop pos = encs.flatten ++ rest →
    skipInputs tx pos encs.length = pos + encs.flatten.length := by
  intro encs
  induction encs with
  | nil =>
    intro pos rest hsh hdrop
    simp [skipInputs]
  | cons e encs ih =>
    intro pos rest hsh hdrop
    have hdrop' : tx.drop pos = e ++ (encs.flatten ++ rest) := by
      rw [hdrop, List.flatten_cons, List.append_assoc]
    obtain ⟨hstep, hnext⟩ := skipInputs_step tx pos encs.length e (encs.flatten ++ rest)
      hdrop' (hsh e (List.mem_cons_self e encs))
    have hrec := ih (pos + e.length) rest
      (fun e' he' => hsh e' (List.mem_cons_of_mem e he')) hnext
    rw [List.length_cons, hstep, hrec, List.flatten_cons]
    simp
    omega

theorem inputScriptField_shape (scriptPubKeys : Option (List (List Nat))) (i : Nat)
    (hsps : ∀ sps, scriptPubKeys = some sps → ∀ sp ∈ sps, sp.length < 2 ^ 64) :
    ScriptFieldShape (inputScriptField scriptPubKeys i) := by
  unfold ScriptFieldShape
  match scriptPubKeys with
  | none => exact Or.inl rfl
  | some sps =>
    rcases hg : sps.getD i [] with _ | ⟨b, t⟩
    · left
      simp only [inputScriptField, hg]
    · refine Or.inr ⟨b :: t, by simp, ?_, by simp only [inputScriptField, hg]⟩
      have hmem : (b :: t) ∈ sps := by
        have hgd : sps.getD i [] = (sps.get? i).getD [] := by simp [List.getD]
        rcases hq : sps.get? i with _ | sp'
        · rw [hgd, hq] at hg
          simp at hg
        · rw [hgd, hq] at hg
          simp at hg
          rw [List.get?_eq_getElem?] at hq
          exact hg ▸ List.getElem?_mem hq
      exact hsps sps rfl (b :: t) hmem

theorem encodeInputAt_shape (scriptPubKeys : Option (List (List Nat))) (i : Nat)
    (input : TransactionInput)
    (htxid : input.txid.length = 32) (hvout : input.vout < 2 ^ 32)
    (hseq : input.sequence.getD 0xffffffff < 2 ^ 32)
    (hsps : ∀ sps, scriptPubKeys = some sps → ∀ sp ∈ sps, sp.length < 2 ^ 64) :
    InputEncShape (encodeInputAt scriptPubKeys i input) := by
  refine ⟨reverseTxid input.txid ++ natToLEBytes 4 input.vout,
    inputScriptField scriptPubKeys i,
    natToLEBytes 4 (input.sequence.getD 0xffffffff), ?_, ?_, ?_,
    inputScriptField_shape scriptPubKeys i hsps⟩
  · unfold encodeInputAt
    simp [List.append_assoc]
  · have h1 : (natToLEBytes 4 input.vout).length = 4 := natToLEBytes_length (by norm_num; omega)
    simp [reverseTxid, htxid, h1]
  · exact natToLEBytes_length (by norm_num; omega)

/-- C9: `findOutputsPositionInHex`, applied with the input count to a
transaction serialised by `createTransactionHex` (unsigned or with any
caller-supplied per-input scripts), returns exactly the byte offset where
the output-count varint begins — the boundary between the input section and
the output section — across all varint size classes of the input count and
of the embedded script lengths.  (The source counts hex characters; those
positions are exactly twice the byte positions used here.) -/
theorem c9_outputs_position (a2h : String → List Nat)
    (inputs : List TransactionInput) (outputs : List TransactionOutput)
    (scriptPubKeys : Option (List (List Nat)))
    (hn : inputs.length < 2 ^ 64)
    (htxid : ∀ i ∈ inputs, i.txid.length = 32)
    (hvout : ∀ i ∈ inputs, i.vout < 2 ^ 32)
    (hseq : ∀ i ∈ inputs, i.sequence.getD 0xffffffff < 2 ^ 32)
    (hsps : ∀ sps, scriptPubKeys = some sps → ∀ sp ∈ sps, sp.length < 2 ^ 64) :
    findOutputsPositionInHex (createTransactionHex a2h inputs outputs scriptPubKeys)
        inputs.length =
      4 + (encodeVarInt inputs.length).length +
        ((inputs.enum.map (fun p => encodeInputAt scriptPubKeys p.1 p.2)).flatten).length ∧
    (createTransactionHex a2h inputs outputs scriptPubKeys).drop
        (findOutputsPositionInHex (createTransactionHex a2h inputs outputs scriptPubKeys)
          inputs.length) =
      encodeVarInt outputs.length ++
        ((outputs.map (encodeOutput a2h)).flatten ++ [0x00, 0x00, 0x00, 0x00]) := by
  have hV0 := encodeVarInt_length_pos inputs.length
  have htx : createTransactionHex a2h inputs outputs scriptPubKeys =
      ([0x01, 0x00, 0x00, 0x00] ++ encodeVarInt inputs.length) ++
      ((inputs.enum.map (fun p => encodeInputAt scriptPubKeys p.1 p.2)).flatten ++
        (encodeVarInt outputs.length ++
          ((outputs.map (encodeOutput a2h)).flatten ++ [0x00, 0x00, 0x00, 0x00]))) := by
    unfold createTransactionHex
    simp [List.append_assoc]
  have hheadlen : ([0x01, 0x00, 0x00, 0x00] ++ encodeVarInt inputs.length).length =
      4 + (encodeVarInt inputs.length).length := by
    simp only [List.length_append, List.length_cons, List.length_nil]
  have hdropV : (createTransactionHex a2h inputs outputs scriptPubKeys).drop
      (4 + (encodeVarInt inputs.length).length) =
      (inputs.enum.map (fun p => encodeInputAt scriptPubKeys p.1 p.2)).flatten ++
        (encodeVarInt outputs.length ++
          ((outputs.map (encodeOutput a2h)).flatten ++ [0x00, 0x00, 0x00, 0x00])) := by
    rw [htx, List.drop_left' hheadlen]
  have hreadV : ∀ b t, encodeVarInt inputs.length = b :: t →
      readByte (createTransactionHex a2h inputs outputs scriptPubKeys) 4 = b := by
    intro b t hbt
    rw [readByte_drop]
    have h4 : ([0x01, 0x00, 0x00, 0x00] : List Nat).length = 4 := rfl
    have : (createTransactionHex a2h inputs outputs scriptPubKeys).drop 4 =
        encodeVarInt inputs.length ++
        ((inputs.enum.map (fun p => encodeInputAt scriptPubKeys p.1 p.2)).flatten ++
          (encodeVarInt outputs.length ++
            ((outputs.map (encodeOutput a2h)).flatten ++ [0x00, 0x00, 0x00, 0x00]))) := by
      rw [htx, List.append_assoc, List.drop_left' h4]
    rw [this, hbt]
    simp
  have hstart :
      (if readByte (createTransactionHex a2h inputs outputs scriptPubKeys) 4 < 0xfd
       then 4 + 1
       else if readByte (createTransactionHex a2h inputs outputs scriptPubKeys) 4 = 0xfd
       then 4 + 3
       else if readByte (createTransactionHex a2h inputs outputs scriptPubKeys) 4 = 0xfe
       then 4 + 5
       else 4 + 9) = 4 + (encodeVarInt inputs.length).length := by
    by_cases h1 : inputs.length < 0xfd
    · have hvar : encodeVarInt inputs.length = [inputs.length] := by
        unfold encodeVarInt
        simp [h1]
      rw [hreadV _ _ hvar, if_pos h1, hvar]
      rfl
    · by_cases h2 : inputs.length ≤ 0xffff
      · have hvar : encodeVarInt inputs.length =
            0xfd :: natToBEBytesPad 2 inputs.length := by
          unfold encodeVarInt
          simp [h1, h2]
        have hpad : (natToBEBytesPad 2 inputs.length).length = 2 :=
          natToBEBytesPad_length (by norm_num; omega)
        rw [hreadV _ _ hvar, if_neg (by norm_num), if_pos rfl, hvar]
        simp [hpad]
      · by_cases h3 : inputs.length ≤ 0xffffffff
        · have hvar : encodeVarInt inputs.length =
              0xfe :: natToBEBytesPad 4 inputs.length := by
            unfold encodeVarInt
            simp [h1, h2, h3]
          have hpad : (natToBEBytesPad 4 inputs.length).length = 4 :=
            natToBEBytesPad_length (by norm_num; omega)
          rw [hreadV _ _ hvar, if_neg (by norm_num), if_neg (by norm_num), if_pos rfl, hvar]
          simp [hpad]
        · have hvar : encodeVarInt inputs.length =
              0xff :: natToBEBytesPad 8 inputs.length := by
            unfold encodeVarInt
            simp [h1, h2, h3]
          have hpad : (natToBEBytesPad 8 inputs.length).length = 8 :=
            natToBEBytesPad_length (by norm_num; omega)
          rw [hreadV _ _ hvar, if_neg (by norm_num), if_neg (by norm_num),
            if_neg (by norm_num), hvar]
          simp [hpad]
  have hshapes : ∀ e ∈ inputs.enum.map (fun p => encodeInputAt scriptPubKeys p.1 p.2),
      InputEncShape e := by
    intro e he
    simp only [List.mem_map] at he
    obtain ⟨p, hp, rfl⟩ := he
    have hmem : p.2 ∈ inputs := List.snd_mem_of_mem_enum hp
    exact encodeInputAt_shape scriptPubKeys p.1 p.2 (htxid p.2 hmem) (hvout p.2 hmem)
      (hseq p.2 hmem) hsps
  have hcount : (inputs.enum.map (fun p => encodeInputAt scriptPubKeys p.1 p.2)).length =
      inputs.length := by
    simp [List.enum_length]
  have hskip := skipInputs_spec (createTransactionHex a2h inputs outputs scriptPubKeys)
    (inputs.enum.map (fun p => encodeInputAt scriptPubKeys p.1 p.2))
    (4 + (encodeVarInt inputs.length).length)
    (encodeVarInt outputs.length ++
      ((outputs.map (encodeOutput a2h)).flatten ++ [0x00, 0x00, 0x00, 0x00]))
    hshapes hdropV
  rw [hcount] at hskip
  have hfind : findOutputsPositionInHex
      (createTransactionHex a2h inputs outputs scriptPubKeys) inputs.length =
      4 + (encodeVarInt inputs.length).length +
        ((inputs.enum.map (fun p => encodeInputAt scriptPubKeys p.1 p.2)).flatten).length := by
    unfold findOutputsPositionInHex
    rw [hstart]
    exact hskip
  refine ⟨hfind, ?_⟩
  rw [hfind, drop_pos_add, hdropV, List.drop_left' rfl]

/-- Witness for C9: a one-input, one-output unsigned transaction; the walk
lands at byte 46 = 4 (version) + 1 (count varint) + 41 (input), which is
where `encodeVarInt 1` for the output count begins. -/
theorem c9_outputs_position_witness :
    findOutputsPositionInHex
        (createTransactionHex (fun _ => List.replicate 20 3)
          [TransactionInput.mk (List.replicate 32 0xaa) 1 none]
          [TransactionOutput.mk "x" 5] none) 1 =
      4 + (encodeVarInt 1).length +
        (([TransactionInput.mk (List.replicate 32 0xaa) 1 none].enum.map
          (fun p => encodeInputAt none p.1 p.2)).flatten).length ∧
    (createTransactionHex (fun _ => List.replicate 20 3)
        [TransactionInput.mk (List.replicate 32 0xaa) 1 none]
        [TransactionOutput.mk "x" 5] none).drop
      (findOutputsPositionInHex
        (createTransactionHex (fun _ => List.replicate 20 3)
          [TransactionInput.mk (List.replicate 32 0xaa) 1 none]
          [TransactionOutput.mk "x" 5] none) 1) =
      encodeVarInt 1 ++
        (([TransactionOutput.mk "x" 5].map (encodeOutput (fun _ => List.replicate 20 3))).flatten ++
          [0x00, 0x00, 0x00, 0x00]) := by
  have h := c9_outputs_position (fun _ => List.replicate 20 3)
    [TransactionInput.mk (List.replicate 32 0xaa) 1 none]
    [TransactionOutput.mk "x" 5] none
    (by decide)
    (by intro i hi; simp at hi; subst hi; decide)
    (by intro i hi; simp at hi; subst hi; decide)
    (by intro i hi; simp at hi; subst hi; decide)
    (by intro sps hsps; exact absurd hsps (by simp))
  exact h

/-! ## Key derivation (`src/wallet.ts`) and the signer (`signTransaction`)

The external primitives — node `crypto` hashes and HMAC, and the `elliptic`
secp256k1 implementation — are not part of the repository; they enter the
embedding as the function bundle `CryptoPrims`, modelled as total (library
exceptions are outside the repository's control flow; the repository's own
`throw` sites are modelled explicitly).  Private keys travel as their byte
form, so `fromHex` on the key is the identity here. -/

/-- The external cryptographic primitives used by `src/wallet.ts` and
`src/transaction.ts`: node `crypto` hashes/HMAC and `elliptic` signing and
public-key derivation. -/
structure CryptoPrims where
  sha256 : List Nat → List Nat
  ripemd160 : List Nat → List Nat
  hmacSha256 : List Nat → List Nat → List Nat
  ecSign : List Nat → List Nat → Nat × Nat
  ecPubCompressed : List Nat → List Nat
  ecPubUncompressed : List Nat → List Nat

/-- Model of `doubleSha256` from `src/crypto.ts`. -/
def doubleSha256 (P : CryptoPrims) (data : List Nat) : List Nat :=
  P.sha256 (P.sha256 data)

/-- Model of `hash160 = ripemd160(sha256(data))` from `src/crypto.ts`. -/
def hash160 (P : CryptoPrims) (data : List Nat) : List Nat :=
  P.ripemd160 (P.sha256 data)

/-- Model of `derivePublicKey` from `src/wallet.ts`: compressed secp256k1 point via
`elliptic`. -/
def derivePublicKey (P : CryptoPrims) (privateKey : List Nat) : List Nat :=
  P.ecPubCompressed privateKey

/-- The ASCII bytes of the HMAC label `'secp256k1'`. -/
def asciiSecp256k1 : List Nat :=
  [0x73, 0x65, 0x63, 0x70, 0x32, 0x35, 0x36, 0x6b, 0x31]

/-- Model of `derivePublicKeyLegacy` from `src/wallet.ts`: HMAC-SHA256 of the secret
under the fixed label, with a synthetic `02`/`03` prefix chosen by the
parity of the digest's trailing byte.  (HMAC digests are 32 bytes, so
`getLast?`/`take 32` see the whole digest.) -/
def derivePublicKeyLegacy (P : CryptoPrims) (privateKey : List Nat) : List Nat :=
  let publicKeyBuffer := P.hmacSha256 asciiSecp256k1 privateKey
  (if publicKeyBuffer.getLast?.getD 0 % 2 = 0 then 0x02 else 0x03) ::
    publicKeyBuffer.take 32

/-- The derivation-detection prologue of `signTransaction`
(`src/transaction.ts` lines 166–196): compare `hash160` of the secp256k1 and
legacy public keys against the hash embedded in the first UTXO's P2PKH
locking script; on a double mismatch the code keeps the secp256k1 key
("keep secp256k1 as fallback") and proceeds — it does not raise any
`KeyMismatch` error (no such error exists in the code base). -/
def detectPubKey (P : CryptoPrims) (privateKey : List Nat)
    (utxos : Option (List UTXO)) : List Nat × String :=
  let pubKeyCompressed := derivePublicKey P privateKey
  match utxos with
  | some (u :: _) =>
    match u.scriptPubKey with
    | some spk =>
      if spk = [] then (pubKeyCompressed, "secp256k1")
      else if spk.take 3 = [0x76, 0xa9, 0x14] ∧ spk.length = 25 then
        let hashFromScript := (spk.drop 3).take 20
        if hash160 P pubKeyCompressed = hashFromScript then
          (pubKeyCompressed, "secp256k1")
        else
          let pubKeyLegacy := derivePublicKeyLegacy P privateKey
          if hash160 P pubKeyLegacy = hashFromScript then
            (pubKeyLegacy, "hmac")
          else
            (pubKeyCompressed, "secp256k1")
      else (pubKeyCompressed, "secp256k1")
    | none => (pubKeyCompressed, "secp256k1")
  | _ => (pubKeyCompressed, "secp256k1")

/-- The `utxos[i].scriptPubKey` lookup inside the signing loop, with the
`throw new Error('Missing UTXO scriptPubKey for input ' + i)` on any falsy
outcome. -/
def getScriptPubKey (utxos : Option (List UTXO)) (i : Nat) :
    Except String (List Nat) :=
  match utxos with
  | some us =>
    match us.get? i with
    | some u =>
      match u.scriptPubKey with
      | some spk =>
        if spk = [] then .error ("Missing UTXO scriptPubKey for input " ++ toString i)
        else .ok spk
      | none => .error ("Missing UTXO scriptPubKey for input " ++ toString i)
    | none => .error ("Missing UTXO scriptPubKey for input " ++ toString i)
  | none => .error ("Missing UTXO scriptPubKey for input " ++ toString i)

/-- The legacy sighash preimage for input `i`: the unsigned transaction with
input `i`'s script field replaced by the spent output's locking script, the
original output section appended verbatim, and the little-endian
SIGHASH_ALL suffix. -/
def preimageHex (transactionHex : List Nat) (inputs : List TransactionInput)
    (i : Nat) (scriptPubKey : List Nat) : List Nat :=
  [0x01, 0x00, 0x00, 0x00] ++ encodeVarInt inputs.length ++
  (inputs.enum.map fun p =>
    reverseTxid p.2.txid ++ natToLEBytes 4 p.2.vout ++
    (if p.1 = i then encodeVarInt scriptPubKey.length ++ scriptPubKey else [0x00]) ++
    natToLEBytes 4 (p.2.sequence.getD 0xffffffff)).flatten ++
  transactionHex.drop (findOutputsPositionInHex transactionHex inputs.length) ++
  [0x01, 0x00, 0x00, 0x00]

/-- One input's spending script: `<len> <DER sig ‖ sighash byte> <len>
<public key>`. -/
def mkScriptSig (P : CryptoPrims) (privateKey pubKeyCompressed : List Nat)
    (transactionHex : List Nat) (inputs : List TransactionInput)
    (i : Nat) (scriptPubKey : List Nat) : List Nat :=
  let digest := doubleSha256 P (preimageHex transactionHex inputs i scriptPubKey)
  let rs := P.ecSign privateKey digest
  let derSig :=
    encodeDERSignature (natToBEBytesPad 32 rs.1) (natToBEBytesPad 32 rs.2) ++ [0x01]
  encodeVarInt derSig.length ++ derSig ++
    encodeVarInt pubKeyCompressed.length ++ pubKeyCompressed

/-- The main (`try`) path of `signTransaction`: detect the key, sign every
input against its UTXO's locking script, and reassemble the transaction
with all scripts spliced in.  The repository-level failure is the missing
`scriptPubKey` throw, surfaced here as `Except.error`. -/
def signMain (P : CryptoPrims) (transactionHex privateKey : List Nat)
    (inputs : List TransactionInput) (utxos : Option (List UTXO)) :
    Except String (List Nat) := do
  let pubKeyCompressed := (detectPubKey P privateKey utxos).1
  let scriptSigs ← (List.range inputs.length).mapM fun i => do
    let spk ← getScriptPubKey utxos i
    pure (mkScriptSig P privateKey pubKeyCompressed transactionHex inputs i spk)
  pure ([0x01, 0x00, 0x00, 0x00] ++ encodeVarInt inputs.length ++
    (inputs.enum.map fun p =>
      reverseTxid p.2.txid ++ natToLEBytes 4 p.2.vout ++
      (encodeVarInt (scriptSigs.getD p.1 []).length ++ scriptSigs.getD p.1 []) ++
      natToLEBytes 4 (p.2.sequence.getD 0xffffffff)).flatten ++
    transactionHex.drop (findOutputsPositionInHex transactionHex inputs.length))

/-- The `catch` path of `signTransaction` ("Fallback: try simple signing"):
sign the raw transaction bytes once and splice a script into the **first**
input only, assuming its script field was the single `00` byte at character
position 82 (byte 41); every other input is left untouched.
(`getPublic('hex').slice(0, 64)` really does take the first 32 bytes of the
`04`-prefixed uncompressed key, prefix byte included.) -/
def fallbackScriptSig (P : CryptoPrims) (transactionHex privateKey : List Nat) :
    List Nat :=
  let pubKeyUncompressed := P.ecPubUncompressed privateKey
  let pubKeyCompressed :=
    (if pubKeyUncompressed.getLast?.getD 0 % 2 = 0 then 0x02 else 0x03) ::
      pubKeyUncompressed.take 32
  let txHash := doubleSha256 P transactionHex
  let rs := P.ecSign privateKey txHash
  let derSig :=
    encodeDERSignature (natToBEBytesPad 32 rs.1) (natToBEBytesPad 32 rs.2) ++ [0x01]
  encodeVarInt derSig.length ++ derSig ++
    encodeVarInt pubKeyCompressed.length ++ pubKeyCompressed

def signFallback (P : CryptoPrims) (transactionHex privateKey : List Nat) :
    List Nat :=
  transactionHex.take 41 ++
    (encodeVarInt (fallbackScriptSig P transactionHex privateKey).length ++
      fallbackScriptSig P transactionHex privateKey) ++ transactionHex.drop 42

/-- Model of `signTransaction` from `src/transaction.ts`: the `try`/`catch` ladder.
Any error of the main path is caught and answered with the simple-signing
fallback; the fallback's own `catch` (which would log the error and return
`transactionHex` unchanged) contains no repository-level throw site and is
unreachable with total primitives. -/
def signTransaction (P : CryptoPrims) (transactionHex privateKey : List Nat)
    (inputs : List TransactionInput) (utxos : Option (List UTXO)) : List Nat :=
  match signMain P transactionHex privateKey inputs utxos with
  | .ok signedHex => signedHex
  | .error _ => signFallback P transactionHex privateKey

/-- Concrete instantiation of the external primitives used by the C1/C2
counterexamples (their values are irrelevant to the control flow being
exercised; only totality matters). -/
def cexPrims : CryptoPrims where
  sha256 := fun _ => List.replicate 32 1
  ripemd160 := fun _ => List.replicate 20 2
  hmacSha256 := fun _ _ => List.replicate 32 3
  ecSign := fun _ _ => (1, 1)
  ecPubCompressed := fun _ => 0x02 :: List.replicate 32 4
  ecPubUncompressed := fun _ => List.replicate 65 5

/-- Two inputs for the C1 counterexample. -/
def cexInputs : List TransactionInput :=
  [TransactionInput.mk (List.replicate 32 0xaa) 0 none,
   TransactionInput.mk (List.replicate 32 0xbb) 1 none]

/-- The corresponding unsigned two-input transaction. -/
def cexUnsignedTx : List Nat :=
  createTransactionHex (fun _ => List.replicate 20 6) cexInputs
    [TransactionOutput.mk "to" 7] none

set_option maxRecDepth 100000 in
/-- C1 counterexample: with two inputs and no UTXO records, the very first
signing step fails (`Missing UTXO scriptPubKey for input 0`), yet
`signTransaction` surfaces nothing: it returns the fallback result, a
transaction whose first input's script is populated (44-byte script, length
byte `44` replacing the `0` at byte 41) while the second input's script is
still the empty `00` (byte 82 of the unsigned hex, preserved verbatim in
the copied suffix) — a partially-signed transaction, not an error. -/
theorem c1_abort_counterexample :
    signMain cexPrims cexUnsignedTx [] cexInputs none =
      .error "Missing UTXO scriptPubKey for input 0" ∧
    signTransaction cexPrims cexUnsignedTx [] cexInputs none =
      cexUnsignedTx.take 41 ++
        ([44, 9, 0x30, 6, 2, 1, 1, 2, 1, 1, 1, 33] ++ (3 :: List.replicate 32 5)) ++
        cexUnsignedTx.drop 42 ∧
    cexUnsignedTx.get? 41 = some 0 ∧
    cexUnsignedTx.get? 82 = some 0 ∧
    signTransaction cexPrims cexUnsignedTx [] cexInputs none ≠ cexUnsignedTx := by
  refine ⟨rfl, by decide, by decide, by decide, by decide⟩

/-- C1 amended: when any step of the main signing path fails, the error is
**not** surfaced to the caller: `signTransaction` falls back to the
simple-signing path, whose result replaces only the first input's script
field (bytes up to 41 and from 42 on are the unsigned transaction's own
bytes), so with two or more inputs a partially-signed transaction is
returned; no run of `signTransaction` ever reports an error. -/
theorem c1_swallowed_error_fallback (P : CryptoPrims)
    (transactionHex privateKey : List Nat) (inputs : List TransactionInput)
    (utxos : Option (List UTXO)) (e : String)
    (h : signMain P transactionHex privateKey inputs utxos = .error e) :
    signTransaction P transactionHex privateKey inputs utxos =
      signFallback P transactionHex privateKey ∧
    ∃ ss : List Nat,
      signTransaction P transactionHex privateKey inputs utxos =
        transactionHex.take 41 ++ (encodeVarInt ss.length ++ ss) ++
          transactionHex.drop 42 := by
  have h1 : signTransaction P transactionHex privateKey inputs utxos =
      signFallback P transactionHex privateKey := by
    unfold signTransaction
    rw [h]
  refine ⟨h1, fallbackScriptSig P transactionHex privateKey, ?_⟩
  rw [h1]
  rfl

/-- Witness for the amended C1 theorem at the counterexample's input. -/
theorem c1_swallowed_error_fallback_witness :
    signTransaction cexPrims cexUnsignedTx [] cexInputs none =
      signFallback cexPrims cexUnsignedTx [] ∧
    ∃ ss : List Nat,
      signTransaction cexPrims cexUnsignedTx [] cexInputs none =
        cexUnsignedTx.take 41 ++ (encodeVarInt ss.length ++ ss) ++
          cexUnsignedTx.drop 42 :=
  c1_swallowed_error_fallback cexPrims cexUnsignedTx [] cexInputs none
    "Missing UTXO scriptPubKey for input 0" rfl

/-- A first UTXO whose P2PKH locking script commits to a 20-byte hash that
matches neither derivation under `cexPrims`. -/
def cexUtxoMismatch : UTXO :=
  UTXO.mk (List.replicate 32 0xaa) 0 5 1
    (some ([0x76, 0xa9, 0x14] ++ List.replicate 20 9 ++ [0x88, 0xac]))

/-- C2 counterexample: the first UTXO carries a P2PKH locking script whose
embedded hash matches neither `hash160(secp256k1 key)` nor
`hash160(legacy key)`, yet the detection keeps the secp256k1 key and
signing completes successfully — no `KeyMismatch` failure occurs (no such
error exists anywhere in the code base). -/
theorem c2_no_keymismatch_counterexample :
    hash160 cexPrims (derivePublicKey cexPrims []) ≠ List.replicate 20 9 ∧
    hash160 cexPrims (derivePublicKeyLegacy cexPrims []) ≠ List.replicate 20 9 ∧
    detectPubKey cexPrims [] (some [cexUtxoMismatch]) =
      (derivePublicKey cexPrims [], "secp256k1") ∧
    (signMain cexPrims
      (createTransactionHex (fun _ => List.replicate 20 6)
        [TransactionInput.mk (List.replicate 32 0xaa) 0 none]
        [TransactionOutput.mk "to" 7] none)
      [] [TransactionInput.mk (List.replicate 32 0xaa) 0 none]
      (some [cexUtxoMismatch])).isOk = true := by
  refine ⟨by decide, by decide, by decide, rfl⟩

/-- C2 amended: with a P2PKH first UTXO, the signer selects the public key
whose `hash160` equals the hash embedded in the locking script, trying the
standard secp256k1 derivation first and the legacy HMAC derivation second;
if **neither** matches, it keeps the secp256k1 key and proceeds (no
`KeyMismatch` error is raised). -/
theorem c2_key_detection (P : CryptoPrims) (privateKey : List Nat)
    (u : UTXO) (us : List UTXO) (h160 : List Nat)
    (hspk : u.scriptPubKey = some ([0x76, 0xa9, 0x14] ++ h160 ++ [0x88, 0xac]))
    (hlen : h160.length = 20) :
    (hash160 P (derivePublicKey P privateKey) = h160 →
      detectPubKey P privateKey (some (u :: us)) =
        (derivePublicKey P privateKey, "secp256k1")) ∧
    (hash160 P (derivePublicKey P privateKey) ≠ h160 →
      hash160 P (derivePublicKeyLegacy P privateKey) = h160 →
      detectPubKey P privateKey (some (u :: us)) =
        (derivePublicKeyLegacy P privateKey, "hmac")) ∧
    (hash160 P (derivePublicKey P privateKey) ≠ h160 →
      hash160 P (derivePublicKeyLegacy P privateKey) ≠ h160 →
      detectPubKey P privateKey (some (u :: us)) =
        (derivePublicKey P privateKey, "secp256k1")) := by
  have hne : ¬ (([0x76, 0xa9, 0x14] ++ h160 ++ [0x88, 0xac] : List Nat) = []) := by simp
  have htake : ([0x76, 0xa9, 0x14] ++ h160 ++ [0x88, 0xac] : List Nat).take 3 =
      [0x76, 0xa9, 0x14] :=
    List.take_left' (show ([0x76, 0xa9, 0x14] : List Nat).length = 3 from rfl)
  have hlen25 : ([0x76, 0xa9, 0x14] ++ h160 ++ [0x88, 0xac] : List Nat).length = 25 := by
    simp [hlen]
  have hhash : ((([0x76, 0xa9, 0x14] ++ h160 ++ [0x88, 0xac] : List Nat)).drop 3).take 20 =
      h160 := List.take_left' hlen
  obtain ⟨tx0, v0, val0, c0, spk0⟩ := u
  simp only at hspk
  subst hspk
  have hred : detectPubKey P privateKey
      (some (UTXO.mk tx0 v0 val0 c0
        (some ([0x76, 0xa9, 0x14] ++ h160 ++ [0x88, 0xac])) :: us)) =
      (if hash160 P (derivePublicKey P privateKey) = h160 then
        (derivePublicKey P privateKey, "secp256k1")
      else if hash160 P (derivePublicKeyLegacy P privateKey) = h160 then
        (derivePublicKeyLegacy P privateKey, "hmac")
      else (derivePublicKey P privateKey, "secp256k1")) := by
    unfold detectPubKey
    dsimp only
    rw [if_neg hne, if_pos (And.intro htake hlen25), hhash]
  refine ⟨?_, ?_, ?_⟩
  · intro hm
    rw [hred, if_pos hm]
  · intro hm1 hm2
    rw [hred, if_neg hm1, if_pos hm2]
  · intro hm1 hm2
    rw [hred, if_neg hm1, if_neg hm2]

/-- Witness for the amended C2 theorem: under `cexPrims` the embedded hash
`replicate 20 2` matches the secp256k1 key's `hash160`. -/
theorem c2_key_detection_witness :
    detectPubKey cexPrims []
        (some [UTXO.mk (List.replicate 32 0xaa) 0 5 1
          (some ([0x76, 0xa9, 0x14] ++ List.replicate 20 2 ++ [0x88, 0xac]))]) =
      (derivePublicKey cexPrims [], "secp256k1") :=
  (c2_key_detection cexPrims []
    (UTXO.mk (List.replicate 32 0xaa) 0 5 1
      (some ([0x76, 0xa9, 0x14] ++ List.replicate 20 2 ++ [0x88, 0xac])))
    [] (List.replicate 20 2) rfl (by decide)).1 (by decide)

/-! ## Raw-secret import (`importFromPrivateKey` in `src/wallet.ts`)

The repository's own validation is exactly
`if (!privateKeyHex || privateKeyHex.length !== 64) throw`; everything else
is delegated: `fromHex` (`Buffer.from(hex, 'hex')`) never throws, and
`derivePublicKey` defers to the external `elliptic` library, whose
`keyFromPrivate` reduces the scalar modulo the curve order instead of
rejecting out-of-range values.  `generateAddress` lives in the absent
`src/address.ts`; modelled from the spec (§4.3, a total base58check
encoding of the hashed public key), it is abstracted as a total function
parameter.  The external derivation is the `derivePub` parameter, returning
`Except` because the source wraps its failures in a `WalletError`. -/

/-- Model of `importFromPrivateKey` from `src/wallet.ts`. -/
def importFromPrivateKey (derivePub : String → Except String String)
    (generateAddress : String → String) (privateKeyHex : String) :
    Except String (String × String × String) :=
  if privateKeyHex = "" ∨ privateKeyHex.length ≠ 64 then
    .error "Invalid private key. Must be 64 hex characters."
  else
    match derivePub privateKeyHex with
    | .ok publicKey => .ok (privateKeyHex, publicKey, generateAddress publicKey)
    | .error e => .error ("Failed to import private key: " ++ e)

/-- Value of one hex digit, `none` for a non-hex character. -/
def hexDigitVal? (c : Char) : Option Nat :=
  if '0' ≤ c ∧ c ≤ '9' then some (c.toNat - '0'.toNat)
  else if 'a' ≤ c ∧ c ≤ 'f' then some (c.toNat - 'a'.toNat + 10)
  else if 'A' ≤ c ∧ c ≤ 'F' then some (c.toNat - 'A'.toNat + 10)
  else none

/-- Canonical big-endian value of a hex string, `none` when any character is
not a hex digit (used only to state which scalar a key string denotes). -/
def hexVal? (s : String) : Option Nat :=
  s.toList.foldl
    (fun acc c =>
      match acc, hexDigitVal? c with
      | some a, some d => some (a * 16 + d)
      | _, _ => none)
    (some 0)

/-- C10 counterexample: the 64-character string `"ff…f"` is canonical hex
whose value `2^256 - 1` exceeds the secp256k1 curve order, so it is not a
valid scalar — yet `importFromPrivateKey` accepts it and returns a wallet,
because the repository checks only the character count and `elliptic`
reduces the scalar mod the order instead of rejecting it (here the external
derivation is instantiated accordingly as a succeeding function). -/
theorem c10_out_of_range_counterexample :
    hexVal? (String.mk (List.replicate 64 'f')) = some (2 ^ 256 - 1) ∧
    nValue < 2 ^ 256 - 1 ∧
    (String.mk (List.replicate 64 'f')).length = 64 ∧
    importFromPrivateKey (fun _ => .ok "02aa") (fun _ => "Taddr")
        (String.mk (List.replicate 64 'f')) =
      .ok (String.mk (List.replicate 64 'f'), "02aa", "Taddr") := by
  refine ⟨by decide, by decide, by decide, rfl⟩

/-- C10 amended: `importFromPrivateKey` succeeds exactly when the string is
non-empty, exactly 64 characters long, and the external derivation call
succeeds — the repository itself performs no hex-canonicality and no
scalar-range validation, and any other malformed-ness is rejected only if
the external library throws. -/
theorem c10_import_length_check_only (derivePub : String → Except String String)
    (generateAddress : String → String) (s : String) :
    (importFromPrivateKey derivePub generateAddress s).isOk =
      (decide (s ≠ "") && decide (s.length = 64) && (derivePub s).isOk) := by
  unfold importFromPrivateKey
  by_cases h1 : s = ""
  · subst h1
    simp
    rfl
  · by_cases h2 : s.length = 64
    · have hc : ¬ (s = "" ∨ s.length ≠ 64) := by
        push_neg
        exact ⟨h1, h2⟩
      rw [if_neg hc]
      rcases hd : derivePub s with e | pk
      · simp only [h1, h2, hd, decide_True, decide_not]
        rfl
      · simp only [h1, h2, hd, decide_True, decide_not]
        rfl
    · have hc : s = "" ∨ s.length ≠ 64 := Or.inr h2
      rw [if_pos hc]
      simp [h2]
      rfl

end Tetsuo
